import Mathlib

/-!
# Verification of the yt_bulk_cc bulk-caption pipeline

A shallow embedding, over `List Char`, of the text-statistics engine
(`yt_bulk_cc/utils.py`: `stats`), the self-referential statistics header
(`yt_bulk_cc/header.py`: `_header_text`, `_fixup_loop`,
`_single_file_header`), the JSON stats-embedding loops
(`yt_bulk_cc/core.py`: `grab`, `yt_bulk_cc/cli.py`: `_flush_json`), the
concatenation engine and exit-code logic of `cli.py:_main`, and the
proxy-acquisition step of `core.py:grab`.

Texts are modelled as `List Char` (Python strings are sequences of code
points).  Machine integers do not arise: Python integers are unbounded, so
`Nat` is the faithful model.
-/

namespace YtBulkCC

/-- Whitespace test for a code point, embedding the character class `\s` of
Python's `re` module on `str` patterns (ASCII whitespace, the C1 controls
`\x1c`-`\x1f`, `\x85`, and the Unicode space separators). -/
def isWS (c : Char) : Bool :=
  (0x09 ≤ c.val && c.val ≤ 0x0d) || (0x1c ≤ c.val && c.val ≤ 0x1f) ||
  c.val == 0x20 || c.val == 0x85 || c.val == 0xa0 || c.val == 0x1680 ||
  (0x2000 ≤ c.val && c.val ≤ 0x200a) || c.val == 0x2028 || c.val == 0x2029 ||
  c.val == 0x202f || c.val == 0x205f || c.val == 0x3000

/-- Counts the maximal runs of non-whitespace characters, carrying whether we
are currently inside such a run; `wordsAux false t` embeds
`len(re.findall(r"\S+", txt))` from `utils.stats`. -/
def wordsAux : Bool → List Char → Nat
  | _, [] => 0
  | inw, c :: cs =>
    if isWS c then wordsAux false cs
    else (if inw then 0 else 1) + wordsAux true cs

/-- The `words` count of `utils.stats`. -/
def countWords (t : List Char) : Nat := wordsAux false t

/-- Embedding of `utils.stats`: the `(words, lines, chars)` triple of a text, where
`words` counts maximal non-whitespace runs, `lines` counts `\n` characters
(`txt.count("\n")`) and `chars` counts code points (`len(txt)`). -/
def stats (t : List Char) : Nat × Nat × Nat :=
  (countWords t, t.count '\n', t.length)

/-- Componentwise sum of two stats triples. -/
def tadd (a b : Nat × Nat × Nat) : Nat × Nat × Nat :=
  (a.1 + b.1, a.2.1 + b.2.1, a.2.2 + b.2.2)

/-- The "in a word" state after scanning a list from a given start state:
the companion accumulator of `wordsAux`. -/
def wstate : Bool → List Char → Bool
  | b, [] => b
  | _, c :: cs => wstate (!isWS c) cs

theorem wordsAux_append (b : Bool) (xs ys : List Char) :
    wordsAux b (xs ++ ys) = wordsAux b xs + wordsAux (wstate b xs) ys := by
  induction xs generalizing b with
  | nil => simp [wordsAux, wstate]
  | cons c cs ih =>
    by_cases h : isWS c = true <;>
      simp [wordsAux, wstate, h, ih, Nat.add_assoc]

theorem wstate_append (b : Bool) (xs ys : List Char) :
    wstate b (xs ++ ys) = wstate (wstate b xs) ys := by
  induction xs generalizing b with
  | nil => simp [wstate]
  | cons c cs ih => simp [wstate, ih]

/-- A "block": a nonempty text containing no whitespace at all.  Rendered
numbers are blocks. -/
def IsBlock (x : List Char) : Prop :=
  x ≠ [] ∧ ∀ c ∈ x, isWS c = false

theorem wordsAux_true_of_nonws {x : List Char}
    (hws : ∀ c ∈ x, isWS c = false) : wordsAux true x = 0 := by
  induction x with
  | nil => rfl
  | cons c cs ih =>
    have hc : isWS c = false := hws c (List.mem_cons_self ..)
    simp [wordsAux, hc, ih (fun c hmem => hws c (List.mem_cons_of_mem _ hmem))]

theorem wordsAux_of_block {x : List Char} (hx : IsBlock x) (b : Bool) :
    wordsAux b x = if b then 0 else 1 := by
  obtain ⟨hne, hws⟩ := hx
  match x with
  | [] => exact absurd rfl hne
  | c :: cs =>
    have hc : isWS c = false := hws c (List.mem_cons_self ..)
    have h0 : wordsAux true cs = 0 :=
      wordsAux_true_of_nonws (fun c hmem => hws c (List.mem_cons_of_mem _ hmem))
    cases b <;> simp [wordsAux, hc, h0]

theorem wstate_of_nonws_cons :
    ∀ (cs : List Char) (c : Char), (∀ a ∈ c :: cs, isWS a = false) →
      ∀ b, wstate b (c :: cs) = true := by
  intro cs
  induction cs with
  | nil =>
    intro c h b
    simp [wstate, h c (List.mem_cons_self ..)]
  | cons d ds ih =>
    intro c h b
    have hrec := ih d (fun a ha => h a (List.mem_cons_of_mem _ ha)) (!isWS c)
    simpa [wstate] using hrec

theorem wstate_of_block {x : List Char} (hx : IsBlock x) (b : Bool) :
    wstate b x = true := by
  obtain ⟨hne, hws⟩ := hx
  match x with
  | [] => exact absurd rfl hne
  | c :: cs => exact wstate_of_nonws_cons cs c hws b

theorem count_nl_of_block {x : List Char} (hx : IsBlock x) :
    x.count '\n' = 0 := by
  refine List.count_eq_zero.mpr (fun h => ?_)
  have := hx.2 _ h
  simp [isWS] at this

/-- If a text ends in the "not inside a word" state (e.g. ends with
whitespace), word counting distributes over appending anything after it. -/
theorem stats_append_of_wstate {x : List Char} (hx : wstate false x = false)
    (y : List Char) : stats (x ++ y) = tadd (stats x) (stats y) := by
  simp [stats, tadd, countWords, wordsAux_append, hx, List.count_append]

/- ------------------------------------------------------------------ -/
/- Decimal rendering of Python integers                                -/
/- ------------------------------------------------------------------ -/

/-- Little-endian decimal digits with explicit fuel (so that the kernel can
evaluate it); `dAux n n` is the digit list of `n` for `n > 0`. -/
def dAux : Nat → Nat → List Nat
  | _, 0 => []
  | 0, _ + 1 => []
  | f + 1, n + 1 => (n + 1) % 10 :: dAux f ((n + 1) / 10)

theorem dAux_fuel : ∀ {n f g : Nat}, n ≤ f → n ≤ g → dAux f n = dAux g n := by
  intro n
  induction n using Nat.strong_induction_on with
  | _ n ih =>
    intro f g hf hg
    match n, f, g with
    | 0, f, g => cases f <;> cases g <;> rfl
    | n + 1, 0, g => exact absurd hf (by omega)
    | n + 1, f + 1, 0 => exact absurd hg (by omega)
    | n + 1, f + 1, g + 1 =>
      have hd : (n + 1) / 10 ≤ n :=
        Nat.le_of_lt_succ (Nat.div_lt_self (Nat.succ_pos n) (by norm_num))
      simp only [dAux, List.cons.injEq, true_and]
      exact ih ((n + 1) / 10) (by omega) (by omega) (by omega)

/-- Little-endian decimal digit values of `n` (empty for `n = 0`). -/
def digitsLE (n : Nat) : List Nat := dAux n n

theorem digitsLE_succ (n : Nat) :
    digitsLE (n + 1) = (n + 1) % 10 :: digitsLE ((n + 1) / 10) := by
  have hd : (n + 1) / 10 ≤ n := Nat.le_of_lt_succ (Nat.div_lt_self (Nat.succ_pos n) (by norm_num))
  show dAux (n + 1) (n + 1) = _
  simp only [dAux, List.cons.injEq, true_and]
  exact dAux_fuel hd le_rfl

/-- Number of decimal digits in Python's `str(n)` (so `numLen 0 = 1`). -/
def numLen (n : Nat) : Nat := if n = 0 then 1 else (digitsLE n).length

theorem digitsLE_zero : digitsLE 0 = [] := rfl

theorem numLen_pos (n : Nat) : 1 ≤ numLen n := by
  unfold numLen
  split
  · exact le_rfl
  · rename_i h
    obtain ⟨m, rfl⟩ := Nat.exists_eq_succ_of_ne_zero h
    rw [digitsLE_succ]
    simp

theorem numLen_of_lt_ten {n : Nat} (h : n < 10) : numLen n = 1 := by
  interval_cases n <;> rfl

theorem numLen_of_ten_le {n : Nat} (h : 10 ≤ n) :
    numLen n = numLen (n / 10) + 1 := by
  obtain ⟨m, rfl⟩ := Nat.exists_eq_succ_of_ne_zero (by omega : n ≠ 0)
  have h10 : (m + 1) / 10 ≠ 0 := (Nat.div_pos h (by norm_num)).ne'
  rw [numLen, if_neg (Nat.succ_ne_zero m), digitsLE_succ, List.length_cons,
    numLen, if_neg h10]

theorem numLen_mono : ∀ {m n : Nat}, m ≤ n → numLen m ≤ numLen n := by
  intro m
  induction m using Nat.strong_induction_on with
  | _ m ih =>
    intro n hmn
    by_cases hm : m < 10
    · calc numLen m = 1 := numLen_of_lt_ten hm
        _ ≤ numLen n := numLen_pos n
    · push_neg at hm
      have hn : 10 ≤ n := le_trans hm hmn
      rw [numLen_of_ten_le hm, numLen_of_ten_le hn]
      have : m / 10 < m := Nat.div_lt_self (by omega) (by norm_num)
      exact Nat.succ_le_succ (ih (m / 10) this (Nat.div_le_div_right hmn))

theorem lt_pow_numLen : ∀ n : Nat, n < 10 ^ numLen n := by
  intro n
  induction n using Nat.strong_induction_on with
  | _ n ih =>
    by_cases hn : n < 10
    · simpa [numLen_of_lt_ten hn] using hn
    · push_neg at hn
      rw [numLen_of_ten_le hn, pow_succ]
      have hd : n / 10 < n := Nat.div_lt_self (by omega) (by norm_num)
      have := ih (n / 10) hd
      calc n < 10 * (n / 10) + 10 := by
              have := Nat.div_add_mod n 10
              have := Nat.mod_lt n (y := 10) (by norm_num)
              omega
        _ ≤ 10 ^ numLen (n / 10) * 10 := by
              have : 10 * (n / 10 + 1) ≤ 10 * 10 ^ numLen (n / 10) := by
                have := ih (n / 10) hd
                omega
              omega

theorem pow_numLen_pred_le : ∀ {n : Nat}, 1 ≤ n → 10 ^ (numLen n - 1) ≤ n := by
  intro n
  induction n using Nat.strong_induction_on with
  | _ n ih =>
    intro hn
    by_cases h : n < 10
    · simpa [numLen_of_lt_ten h] using hn
    · push_neg at h
      rw [numLen_of_ten_le h]
      have hd : n / 10 < n := Nat.div_lt_self (by omega) (by norm_num)
      have hd1 : 1 ≤ n / 10 := Nat.div_pos h (by norm_num)
      have hrec := ih (n / 10) hd hd1
      calc 10 ^ (numLen (n / 10) + 1 - 1) = 10 ^ (numLen (n / 10) - 1) * 10 := by
              have h1 := numLen_pos (n / 10)
              have : numLen (n / 10) + 1 - 1 = numLen (n / 10) - 1 + 1 := by omega
              rw [this, pow_succ]
        _ ≤ (n / 10) * 10 := by
              exact Nat.mul_le_mul_right _ hrec
        _ ≤ n := by
              have := Nat.div_add_mod n 10
              omega

theorem numLen_le_self {n : Nat} (h : 1 ≤ n) : numLen n ≤ n := by
  induction n using Nat.strong_induction_on with
  | _ n ih =>
    by_cases hn : n < 10
    · rw [numLen_of_lt_ten hn]; omega
    · push_neg at hn
      rw [numLen_of_ten_le hn]
      have hd : n / 10 < n := Nat.div_lt_self (by omega) (by norm_num)
      have hd1 : 1 ≤ n / 10 := Nat.div_pos hn (by norm_num)
      have := ih (n / 10) hd hd1
      omega

/-- Adding `t` to a number grows its decimal width by at most `t`. -/
theorem numLen_add_le (n t : Nat) : numLen (n + t) ≤ numLen n + t := by
  induction t with
  | zero => simp
  | succ t iht =>
    have h1 : numLen (n + t + 1) ≤ numLen (n + t) + 1 := by
      by_cases h : n + t + 1 < 10
      · rw [numLen_of_lt_ten h]
        have := numLen_pos (n + t)
        omega
      · push_neg at h
        rw [numLen_of_ten_le h]
        have : (n + t + 1) / 10 ≤ n + t := by
          have := Nat.div_le_self (n + t + 1) 10
          have h2 : (n + t + 1) / 10 < n + t + 1 := Nat.div_lt_self (by omega) (by norm_num)
          omega
        have := numLen_mono this
        omega
    have he : n + (t + 1) = n + t + 1 := by omega
    rw [he]
    omega

/- ------------------------------------------------------------------ -/
/- Rendering numbers as character lists                                -/
/- ------------------------------------------------------------------ -/

/-- The character for a decimal digit value. -/
def digChar (d : Nat) : Char := Char.ofNat (48 + d)

/-- Python's `str(n)` for a non-negative int: big-endian decimal digits. -/
def pyNatStr (n : Nat) : List Char :=
  if n = 0 then ['0'] else ((digitsLE n).map digChar).reverse

theorem length_pyNatStr (n : Nat) : (pyNatStr n).length = numLen n := by
  unfold pyNatStr numLen
  split <;> simp

/-- Insert `','` after every three characters of a little-endian digit list:
the core of Python's `f"{n:,}"` thousands grouping. -/
def commaRev : List Char → List Char
  | a :: b :: c :: d :: rest => a :: b :: c :: ',' :: commaRev (d :: rest)
  | l => l

/-- Python's `f"{n:,}"`: decimal digits with `,` thousands separators. -/
def pyCommaStr (n : Nat) : List Char :=
  (commaRev (pyNatStr n).reverse).reverse

theorem length_commaRev :
    ∀ l : List Char, (commaRev l).length = l.length + (l.length - 1) / 3
  | [] => by simp [commaRev]
  | [a] => by simp [commaRev]
  | [a, b] => by simp [commaRev]
  | [a, b, c] => by simp [commaRev]
  | a :: b :: c :: d :: rest => by
    have ih := length_commaRev (d :: rest)
    simp only [commaRev, List.length_cons] at ih ⊢
    omega

/-- The length of `f"{n:,}"` as a function of the digit count. -/
def commaLen (n : Nat) : Nat := numLen n + (numLen n - 1) / 3

theorem length_pyCommaStr (n : Nat) : (pyCommaStr n).length = commaLen n := by
  simp [pyCommaStr, commaLen, length_commaRev, length_pyNatStr]

theorem commaLen_mono {m n : Nat} (h : m ≤ n) : commaLen m ≤ commaLen n := by
  have := numLen_mono h
  unfold commaLen
  have : (numLen m - 1) / 3 ≤ (numLen n - 1) / 3 :=
    Nat.div_le_div_right (by omega)
  omega

theorem commaLen_eq_of_numLen_eq {m n : Nat} (h : numLen m = numLen n) :
    commaLen m = commaLen n := by simp [commaLen, h]

theorem commaLen_le_two_numLen (n : Nat) : commaLen n ≤ 2 * numLen n := by
  unfold commaLen
  have : (numLen n - 1) / 3 ≤ numLen n := le_trans (Nat.div_le_self _ _) (by omega)
  omega

theorem digitsLE_lt_ten : ∀ n : Nat, ∀ d ∈ digitsLE n, d < 10 := by
  intro n
  induction n using Nat.strong_induction_on with
  | _ n ih =>
    match n with
    | 0 => intro d hd; simp [digitsLE_zero] at hd
    | m + 1 =>
      intro d hd
      rw [digitsLE_succ] at hd
      rcases List.mem_cons.mp hd with h | h
      · subst h; exact Nat.mod_lt _ (by norm_num)
      · exact ih ((m + 1) / 10) (Nat.div_lt_self (Nat.succ_pos m) (by norm_num)) d h

theorem isWS_digChar {d : Nat} (hd : d < 10) : isWS (digChar d) = false := by
  interval_cases d <;> decide

theorem block_pyNatStr (n : Nat) : IsBlock (pyNatStr n) := by
  unfold pyNatStr
  split
  · exact ⟨by simp, by intro c hc; simp at hc; subst hc; decide⟩
  · rename_i h
    constructor
    · obtain ⟨m, rfl⟩ := Nat.exists_eq_succ_of_ne_zero h
      rw [digitsLE_succ]
      simp
    · intro c hc
      simp only [List.mem_reverse, List.mem_map] at hc
      obtain ⟨d, hd, rfl⟩ := hc
      exact isWS_digChar (digitsLE_lt_ten n d hd)

theorem mem_commaRev :
    ∀ (l : List Char) (c : Char), c ∈ commaRev l → c ∈ l ∨ c = ','
  | [], c => by simp [commaRev]
  | [a], c => by simp [commaRev]; tauto
  | [a, b], c => by simp [commaRev]; tauto
  | [a, b, d], c => by simp [commaRev]; tauto
  | a :: b :: d :: e :: rest, c => by
    intro hc
    have ih := mem_commaRev (e :: rest) c
    simp only [commaRev, List.mem_cons] at hc ⊢
    rcases hc with h | h | h | h | h
    · tauto
    · tauto
    · tauto
    · tauto
    · rcases ih h with h2 | h2
      · simp at h2; tauto
      · tauto

theorem commaRev_ne_nil : ∀ {l : List Char}, l ≠ [] → commaRev l ≠ []
  | [], h => absurd rfl h
  | [a], _ => by simp [commaRev]
  | [a, b], _ => by simp [commaRev]
  | [a, b, c], _ => by simp [commaRev]
  | a :: b :: c :: d :: rest, _ => by simp [commaRev]

theorem block_pyCommaStr (n : Nat) : IsBlock (pyCommaStr n) := by
  have hb := block_pyNatStr n
  constructor
  · have h1 : (pyNatStr n).reverse ≠ [] := by
      simpa using hb.1
    have := commaRev_ne_nil h1
    simpa [pyCommaStr]
  · intro c hc
    simp only [pyCommaStr, List.mem_reverse] at hc
    rcases mem_commaRev _ _ hc with h | h
    · exact hb.2 c (List.mem_reverse.mp h)
    · subst h; decide

/- ------------------------------------------------------------------ -/
/- The statistics header (`header.py`)                                 -/
/- ------------------------------------------------------------------ -/

/-- The output format keys of `formatters.FMT`/`EXT`. -/
inductive Format
  | srt | webvtt | text | pretty | json
  deriving DecidableEq

/-- Shorthand: the character list of a string literal. -/
def sL (s : String) : List Char := s.data

/-- Embedding of `pre = "NOTE " if fmt in ("srt", "webvtt") else "# "`. -/
def pre (fmt : Format) : List Char :=
  if fmt = .srt ∨ fmt = .webvtt then sL "NOTE " else sL "# "

/-- Python's `"\n".join(lines)`. -/
def joinNL : List (List Char) → List Char
  | [] => []
  | [x] => x
  | x :: y :: rest => x ++ '\n' :: joinNL (y :: rest)

/-- The per-video manifest lines of `_header_text` (the `videos:` block). -/
def videoLines (fmt : Format) (metas : List (List Char × List Char)) :
    List (List Char) :=
  (pre fmt ++ sL "videos:") ::
    metas.map (fun m => pre fmt ++ sL "  - https://youtu.be/" ++ m.1 ++ sL " — " ++ m.2)

/-- The lines of `_header_text(fmt, w, l, c, metas, _ts_override=ts)`. -/
def headerLines (fmt : Format) (w l c : Nat)
    (metas : List (List Char × List Char)) (ts : List Char) :
    List (List Char) :=
  (pre fmt ++ sL "stats: " ++ pyCommaStr w ++ sL " words · " ++ pyCommaStr l ++
      sL " lines · " ++ pyCommaStr c ++ sL " chars")
    :: (pre fmt ++ sL "generated: " ++ ts)
    :: ((if metas = [] then [] else videoLines fmt metas) ++ [[]])

/-- Embedding of `header._header_text`: `"\n".join(lines) + "\n"`. -/
def headerText (fmt : Format) (w l c : Nat)
    (metas : List (List Char × List Char)) (ts : List Char) : List Char :=
  joinNL (headerLines fmt w l c metas ts) ++ ['\n']

/-- The fixed part of the header before the `words` figure. -/
def hdrA (fmt : Format) : List Char := pre fmt ++ sL "stats: "

/-- The fixed part of the header between the `words` and `lines` figures. -/
def hdrB : List Char := sL " words · "

/-- The fixed part of the header between the `lines` and `chars` figures. -/
def hdrC : List Char := sL " lines · "

/-- Everything in the header after the `chars` figure (independent of the
three numbers). -/
def hdrD (fmt : Format) (metas : List (List Char × List Char))
    (ts : List Char) : List Char :=
  sL " chars" ++ '\n' ::
    (joinNL ((pre fmt ++ sL "generated: " ++ ts)
        :: ((if metas = [] then [] else videoLines fmt metas) ++ [[]])) ++ ['\n'])

theorem headerText_factored (fmt : Format) (w l c : Nat)
    (metas : List (List Char × List Char)) (ts : List Char) :
    headerText fmt w l c metas ts =
      hdrA fmt ++ (pyCommaStr w ++ (hdrB ++ (pyCommaStr l ++
        (hdrC ++ (pyCommaStr c ++ hdrD fmt metas ts))))) := by
  simp only [headerText, headerLines, joinNL, hdrA, hdrB, hdrC, hdrD,
    List.append_assoc, List.cons_append, List.nil_append]

theorem wordsAux_block_congr {x y : List Char} (hx : IsBlock x)
    (hy : IsBlock y) (b : Bool) (Q : List Char) :
    wordsAux b (x ++ Q) = wordsAux b (y ++ Q) := by
  rw [wordsAux_append, wordsAux_append, wordsAux_of_block hx,
    wordsAux_of_block hy, wstate_of_block hx, wstate_of_block hy]

theorem wordsAux_three_blocks {x1 x2 x3 y1 y2 y3 : List Char}
    (hx1 : IsBlock x1) (hx2 : IsBlock x2) (hx3 : IsBlock x3)
    (hy1 : IsBlock y1) (hy2 : IsBlock y2) (hy3 : IsBlock y3)
    (b : Bool) (A B C D : List Char) :
    wordsAux b (A ++ (x1 ++ (B ++ (x2 ++ (C ++ (x3 ++ D)))))) =
      wordsAux b (A ++ (y1 ++ (B ++ (y2 ++ (C ++ (y3 ++ D)))))) := by
  simp only [wordsAux_append, wstate_append,
    wordsAux_of_block hx1, wordsAux_of_block hx2, wordsAux_of_block hx3,
    wordsAux_of_block hy1, wordsAux_of_block hy2, wordsAux_of_block hy3,
    wstate_of_block hx1, wstate_of_block hx2, wstate_of_block hx3,
    wstate_of_block hy1, wstate_of_block hy2, wstate_of_block hy3]

/-- Words of the rendered header: independent of the three numbers. -/
def HW (fmt : Format) (metas : List (List Char × List Char))
    (ts : List Char) : Nat := countWords (headerText fmt 0 0 0 metas ts)

/-- Line count of the rendered header: independent of the three numbers. -/
def HL (fmt : Format) (metas : List (List Char × List Char))
    (ts : List Char) : Nat := (headerText fmt 0 0 0 metas ts).count '\n'

/-- Character count of the rendered header minus the three figures. -/
def HC (fmt : Format) (metas : List (List Char × List Char))
    (ts : List Char) : Nat :=
  (hdrA fmt).length + hdrB.length + hdrC.length + (hdrD fmt metas ts).length

/-- Stats of a rendered header: the words and line counts do not depend on
the numbers printed in it, and the character count depends on them only
through the width of their comma-grouped decimal rendering. -/
theorem stats_headerText (fmt : Format) (w l c : Nat)
    (metas : List (List Char × List Char)) (ts : List Char) :
    stats (headerText fmt w l c metas ts) =
      (HW fmt metas ts, HL fmt metas ts,
        HC fmt metas ts + (commaLen w + commaLen l + commaLen c)) := by
  refine Prod.ext ?_ (Prod.ext ?_ ?_)
  · show countWords _ = HW fmt metas ts
    unfold HW countWords
    rw [headerText_factored, headerText_factored]
    exact wordsAux_three_blocks (block_pyCommaStr w) (block_pyCommaStr l)
      (block_pyCommaStr c) (block_pyCommaStr 0) (block_pyCommaStr 0)
      (block_pyCommaStr 0) false _ _ _ _
  · show (headerText fmt w l c metas ts).count '\n' = HL fmt metas ts
    unfold HL
    rw [headerText_factored, headerText_factored]
    simp only [List.count_append,
      count_nl_of_block (block_pyCommaStr w), count_nl_of_block (block_pyCommaStr l),
      count_nl_of_block (block_pyCommaStr c), count_nl_of_block (block_pyCommaStr 0)]
  · show (headerText fmt w l c metas ts).length = _
    rw [headerText_factored]
    simp only [List.length_append, length_pyCommaStr, HC]
    ring

theorem commaLen_pos (n : Nat) : 1 ≤ commaLen n := by
  have := numLen_pos n
  unfold commaLen
  omega

theorem le_pow_sub_two : ∀ {d : Nat}, 3 ≤ d → d ≤ 10 ^ (d - 2) := by
  intro d hd
  obtain ⟨e, rfl⟩ : ∃ e, d = e + 3 := ⟨d - 3, by omega⟩
  induction e with
  | zero => norm_num
  | succ e ih =>
    have h1 : e + 1 + 3 - 2 = (e + 3 - 2) + 1 := by omega
    rw [h1, pow_succ]
    have := ih (by omega)
    omega

/-- Forward iteration of a step function. -/
def iterF {α : Type} (F : α → α) : Nat → α → α
  | 0, s => s
  | n + 1, s => iterF F n (F s)

theorem iterF_succ_right {α : Type} (F : α → α) :
    ∀ (j : Nat) (s : α), iterF F (j + 1) s = F (iterF F j s) := by
  intro j
  induction j with
  | zero => intro s; rfl
  | succ j ih => intro s; exact ih (F s)

/-- The scalar recurrence `x ↦ K + φ x`, for a rendered-number width
function `φ` determined by the decimal digit count and bounded by twice of
it, reaches a fixed point within three steps of any starting point below
its first iterate: the decimal width of the iterates can only grow twice
before the magnitudes run away from the bounded increments. -/
theorem scalar_converge (φ : Nat → Nat)
    (hmono : ∀ {m n : Nat}, m ≤ n → φ m ≤ φ n)
    (hdet : ∀ {m n : Nat}, numLen m = numLen n → φ m = φ n)
    (hbound : ∀ n : Nat, φ n ≤ 2 * numLen n)
    (hpos : ∀ n : Nat, 1 ≤ φ n)
    (K x0 : Nat) (h0 : x0 ≤ K + φ x0) :
    ∃ j ≤ 3, iterF (fun x => K + φ x) (j + 1) x0 =
      iterF (fun x => K + φ x) j x0 := by
  set g := fun x => K + φ x with hg
  set x1 := g x0 with hx1
  set x2 := g x1 with hx2
  set x3 := g x2 with hx3
  have h01 : x0 ≤ x1 := h0
  have h12 : x1 ≤ x2 := by
    simp only [hx1, hx2, hg]
    exact Nat.add_le_add_left (hmono h01) K
  have h23 : x2 ≤ x3 := by
    simp only [hx2, hx3, hg]
    exact Nat.add_le_add_left (hmono h12) K
  have hiter : ∀ j, iterF g (j + 1) x0 = g (iterF g j x0) :=
    fun j => iterF_succ_right g j x0
  by_cases e1 : numLen x1 = numLen x0
  · refine ⟨1, by norm_num, ?_⟩
    show iterF g 2 x0 = iterF g 1 x0
    have : g x1 = g x0 := by
      simp only [hg]
      rw [hdet e1]
    simpa [iterF] using this
  · by_cases e2 : numLen x2 = numLen x1
    · refine ⟨2, by norm_num, ?_⟩
      show iterF g 3 x0 = iterF g 2 x0
      have : g x2 = g x1 := by
        simp only [hg]
        rw [hdet e2]
      simpa [iterF] using this
    · by_cases e3 : numLen x3 = numLen x2
      · refine ⟨3, by norm_num, ?_⟩
        show iterF g 4 x0 = iterF g 3 x0
        have : g x3 = g x2 := by
          simp only [hg]
          rw [hdet e3]
        simpa [iterF] using this
      · exfalso
        have m01 : numLen x0 ≤ numLen x1 := numLen_mono h01
        have m12 : numLen x1 < numLen x2 :=
          lt_of_le_of_ne (numLen_mono h12) (fun h => e2 h.symm)
        have m23 : numLen x2 < numLen x3 :=
          lt_of_le_of_ne (numLen_mono h23) (fun h => e3 h.symm)
        set d := numLen x3 with hd
        have hd3 : 3 ≤ d := by
          have := numLen_pos x1
          omega
        have hub : x3 ≤ x1 + 2 * d := by
          have hle : x3 ≤ x1 + φ x2 := by
            simp only [hx3, hx1, hg]
            have : φ x0 ≥ 0 := Nat.zero_le _
            omega
          have h2 : φ x2 ≤ 2 * numLen x2 := hbound x2
          have h3 : numLen x2 ≤ d := by omega
          omega
        have hx1ub : x1 < 10 ^ (d - 2) := by
          calc x1 < 10 ^ numLen x1 := lt_pow_numLen x1
            _ ≤ 10 ^ (d - 2) := Nat.pow_le_pow_right (by norm_num) (by omega)
        have hx3lb : 10 ^ (d - 1) ≤ x3 := by
          have hpos : 1 ≤ x3 := by
            have := hpos x2
            simp only [hx3, hg]
            omega
          simpa [← hd] using pow_numLen_pred_le hpos
        have hsplit : 10 ^ (d - 1) = 10 * 10 ^ (d - 2) := by
          have h5 : d - 1 = (d - 2) + 1 := by omega
          rw [h5, pow_succ]
          ring
        have hdp : d ≤ 10 ^ (d - 2) := le_pow_sub_two hd3
        omega

/-- The body of `_fixup_loop`, with `fuel` remaining iterations of its
`for _ in range(10)` loop.  Each iteration renders the header with the
current guess `(w, l, c)`, recomputes the totals from the body triple plus
the header's own stats, returns on a fixed point (final `Bool` is `true`:
no convergence warning), and on fuel exhaustion returns the last rendered
header together with the updated totals (final `Bool` is `false`: the
non-convergence warning is logged). -/
def fixupGo (fmt : Format) (metas : List (List Char × List Char))
    (ts : List Char) (bw bl bc : Nat) :
    Nat → Nat → Nat → Nat → List Char × Nat × Nat × Nat × Bool
  | 0, w, l, c => (headerText fmt w l c metas ts, w, l, c, false)
  | fuel + 1, w, l, c =>
    let hdr := headerText fmt w l c metas ts
    let hs := stats hdr
    let w2 := bw + hs.1
    let l2 := bl + hs.2.1
    let c2 := bc + hs.2.2
    if (w, l, c) = (w2, l2, c2) then (hdr, w, l, c, true)
    else if fuel = 0 then (hdr, w2, l2, c2, false)
    else fixupGo fmt metas ts bw bl bc fuel w2 l2 c2

/-- Embedding of `header._fixup_loop(body, fmt, metas)` with the frozen timestamp `ts`:
ten refinement rounds starting from the body triple. -/
def fixupLoop (fmt : Format) (metas : List (List Char × List Char))
    (ts : List Char) (body : Nat × Nat × Nat) :
    List Char × Nat × Nat × Nat × Bool :=
  fixupGo fmt metas ts body.1 body.2.1 body.2.2 10 body.1 body.2.1 body.2.2

/-- The refinement map of `_fixup_loop` in closed form: new totals are the
body triple plus the stats of the header rendered at the current totals. -/
def fixStep (fmt : Format) (metas : List (List Char × List Char))
    (ts : List Char) (bw bl bc : Nat) (s : Nat × Nat × Nat) :
    Nat × Nat × Nat :=
  (bw + HW fmt metas ts, bl + HL fmt metas ts,
    bc + (HC fmt metas ts + (commaLen s.1 + commaLen s.2.1 + commaLen s.2.2)))

theorem fixStep_spec (fmt : Format) (metas : List (List Char × List Char))
    (ts : List Char) (bw bl bc : Nat) (s : Nat × Nat × Nat) :
    fixStep fmt metas ts bw bl bc s =
      (bw + (stats (headerText fmt s.1 s.2.1 s.2.2 metas ts)).1,
       bl + (stats (headerText fmt s.1 s.2.1 s.2.2 metas ts)).2.1,
       bc + (stats (headerText fmt s.1 s.2.1 s.2.2 metas ts)).2.2) := by
  rw [stats_headerText]
  rfl

theorem fixupGo_succ (fmt : Format) (metas : List (List Char × List Char))
    (ts : List Char) (bw bl bc fuel w l c : Nat) :
    fixupGo fmt metas ts bw bl bc (fuel + 1) w l c =
      if (w, l, c) = fixStep fmt metas ts bw bl bc (w, l, c) then
        (headerText fmt w l c metas ts, w, l, c, true)
      else if fuel = 0 then
        (headerText fmt w l c metas ts,
          (fixStep fmt metas ts bw bl bc (w, l, c)).1,
          (fixStep fmt metas ts bw bl bc (w, l, c)).2.1,
          (fixStep fmt metas ts bw bl bc (w, l, c)).2.2, false)
      else fixupGo fmt metas ts bw bl bc fuel
        (fixStep fmt metas ts bw bl bc (w, l, c)).1
        (fixStep fmt metas ts bw bl bc (w, l, c)).2.1
        (fixStep fmt metas ts bw bl bc (w, l, c)).2.2 := by
  simp only [fixupGo, fixStep_spec]

/-- If some iterate of the refinement map is a fixed point within the fuel
budget, `fixupGo` returns with the converged flag set. -/
theorem fixupGo_converged (fmt : Format) (metas : List (List Char × List Char))
    (ts : List Char) (bw bl bc : Nat) :
    ∀ (fuel : Nat) (s : Nat × Nat × Nat),
      (∃ k < fuel, iterF (fixStep fmt metas ts bw bl bc) (k + 1) s =
          iterF (fixStep fmt metas ts bw bl bc) k s) →
      (fixupGo fmt metas ts bw bl bc fuel s.1 s.2.1 s.2.2).2.2.2.2 = true := by
  intro fuel
  induction fuel with
  | zero =>
    rintro s ⟨k, hk, -⟩
    omega
  | succ fuel ih =>
    rintro ⟨w, l, c⟩ ⟨k, hk, hfix⟩
    rw [fixupGo_succ]
    by_cases hc : (w, l, c) = fixStep fmt metas ts bw bl bc (w, l, c)
    · rw [if_pos hc]
    · rw [if_neg hc]
      have hk0 : k ≠ 0 := by
        intro h
        subst h
        exact hc (show iterF _ 0 (w, l, c) = iterF _ 1 (w, l, c) from hfix.symm)
      obtain ⟨k', rfl⟩ := Nat.exists_eq_succ_of_ne_zero hk0
      have hfuel0 : fuel ≠ 0 := by omega
      rw [if_neg hfuel0]
      exact ih (fixStep fmt metas ts bw bl bc (w, l, c))
        ⟨k', by omega, hfix⟩

/-- The refinement map of `_fixup_loop` reaches a fixed point within 5
iterations (hence within the 10-round budget) from the body triple: after
one round the word and line totals are pinned (the header's word and line
counts do not depend on the numbers printed in it), and the character
total then follows the scalar recurrence `x ↦ K + commaLen x`. -/
theorem fixStep_reaches_fix (fmt : Format)
    (metas : List (List Char × List Char)) (ts : List Char)
    (bw bl bc : Nat) :
    ∃ k < 10, iterF (fixStep fmt metas ts bw bl bc) (k + 1) (bw, bl, bc) =
      iterF (fixStep fmt metas ts bw bl bc) k (bw, bl, bc) := by
  set K := bc + HC fmt metas ts + commaLen (bw + HW fmt metas ts) +
    commaLen (bl + HL fmt metas ts) with hK
  have hstep : ∀ x : Nat, fixStep fmt metas ts bw bl bc
      (bw + HW fmt metas ts, bl + HL fmt metas ts, x) =
      (bw + HW fmt metas ts, bl + HL fmt metas ts, K + commaLen x) := by
    intro x
    simp only [fixStep]
    refine Prod.ext rfl (Prod.ext rfl ?_)
    show bc + (HC fmt metas ts + (commaLen (bw + HW fmt metas ts) +
      commaLen (bl + HL fmt metas ts) + commaLen x)) = K + commaLen x
    omega
  set c1 := bc + (HC fmt metas ts +
    (commaLen bw + commaLen bl + commaLen bc)) with hc1
  have hbase : fixStep fmt metas ts bw bl bc (bw, bl, bc) =
      (bw + HW fmt metas ts, bl + HL fmt metas ts, c1) := rfl
  have hform : ∀ n, iterF (fixStep fmt metas ts bw bl bc) (n + 1) (bw, bl, bc) =
      (bw + HW fmt metas ts, bl + HL fmt metas ts,
        iterF (fun x => K + commaLen x) n c1) := by
    intro n
    induction n with
    | zero => exact hbase
    | succ n ih =>
      rw [iterF_succ_right, ih, iterF_succ_right]
      exact hstep _
  have e1 : commaLen bw ≤ commaLen (bw + HW fmt metas ts) :=
    commaLen_mono (Nat.le_add_right _ _)
  have e2 : commaLen bl ≤ commaLen (bl + HL fmt metas ts) :=
    commaLen_mono (Nat.le_add_right _ _)
  have e3 : commaLen bc ≤ commaLen c1 := commaLen_mono (by omega)
  have h0 : c1 ≤ K + commaLen c1 := by omega
  obtain ⟨j, hj, hfix⟩ := scalar_converge commaLen (fun h => commaLen_mono h)
    (fun h => commaLen_eq_of_numLen_eq h) commaLen_le_two_numLen commaLen_pos
    K c1 h0
  refine ⟨j + 1, by omega, ?_⟩
  rw [hform (j + 1), hform j, hfix]

/-- When `fixupGo` returns with the converged flag, the returned header is
the header rendered at the returned totals, and the returned totals are the
body triple plus the stats of that header. -/
theorem fixupGo_fixed (fmt : Format) (metas : List (List Char × List Char))
    (ts : List Char) (bw bl bc : Nat) :
    ∀ (fuel w l c : Nat),
      (fixupGo fmt metas ts bw bl bc fuel w l c).2.2.2.2 = true →
      (fixupGo fmt metas ts bw bl bc fuel w l c).1 =
        headerText fmt (fixupGo fmt metas ts bw bl bc fuel w l c).2.1
          (fixupGo fmt metas ts bw bl bc fuel w l c).2.2.1
          (fixupGo fmt metas ts bw bl bc fuel w l c).2.2.2.1 metas ts ∧
      (fixupGo fmt metas ts bw bl bc fuel w l c).2.1 =
        bw + (stats (fixupGo fmt metas ts bw bl bc fuel w l c).1).1 ∧
      (fixupGo fmt metas ts bw bl bc fuel w l c).2.2.1 =
        bl + (stats (fixupGo fmt metas ts bw bl bc fuel w l c).1).2.1 ∧
      (fixupGo fmt metas ts bw bl bc fuel w l c).2.2.2.1 =
        bc + (stats (fixupGo fmt metas ts bw bl bc fuel w l c).1).2.2 := by
  intro fuel
  induction fuel with
  | zero =>
    intro w l c h
    simp [fixupGo] at h
  | succ fuel ih =>
    intro w l c h
    rw [fixupGo_succ] at h ⊢
    by_cases hc : (w, l, c) = fixStep fmt metas ts bw bl bc (w, l, c)
    · rw [if_pos hc] at h ⊢
      have := hc
      rw [fixStep_spec] at this
      have h1 : w = bw + (stats (headerText fmt w l c metas ts)).1 :=
        congrArg Prod.fst this
      have h2 : l = bl + (stats (headerText fmt w l c metas ts)).2.1 :=
        congrArg (fun p => p.2.1) this
      have h3 : c = bc + (stats (headerText fmt w l c metas ts)).2.2 :=
        congrArg (fun p => p.2.2) this
      exact ⟨rfl, h1, h2, h3⟩
    · rw [if_neg hc] at h ⊢
      by_cases hf : fuel = 0
      · rw [if_pos hf] at h
        simp at h
      · rw [if_neg hf] at h ⊢
        exact ih _ _ _ h

/-- The loop `_fixup_loop` always returns without the convergence warning. -/
theorem fixupLoop_flag (fmt : Format) (metas : List (List Char × List Char))
    (ts : List Char) (body : Nat × Nat × Nat) :
    (fixupLoop fmt metas ts body).2.2.2.2 = true := by
  have h := fixStep_reaches_fix fmt metas ts body.1 body.2.1 body.2.2
  exact fixupGo_converged fmt metas ts body.1 body.2.1 body.2.2 10
    (body.1, body.2.1, body.2.2) h

/-- The values returned by `_fixup_loop`: the header is rendered at the
returned triple and the triple is the body plus the header's own stats. -/
theorem fixupLoop_fixed (fmt : Format) (metas : List (List Char × List Char))
    (ts : List Char) (body : Nat × Nat × Nat) :
    (fixupLoop fmt metas ts body).1 =
      headerText fmt (fixupLoop fmt metas ts body).2.1
        (fixupLoop fmt metas ts body).2.2.1
        (fixupLoop fmt metas ts body).2.2.2.1 metas ts ∧
    (fixupLoop fmt metas ts body).2.1 =
      body.1 + (stats (fixupLoop fmt metas ts body).1).1 ∧
    (fixupLoop fmt metas ts body).2.2.1 =
      body.2.1 + (stats (fixupLoop fmt metas ts body).1).2.1 ∧
    (fixupLoop fmt metas ts body).2.2.2.1 =
      body.2.2 + (stats (fixupLoop fmt metas ts body).1).2.2 :=
  fixupGo_fixed fmt metas ts body.1 body.2.1 body.2.2 10 body.1 body.2.1
    body.2.2 (fixupLoop_flag fmt metas ts body)

theorem wstate_headerText (fmt : Format) (w l c : Nat)
    (metas : List (List Char × List Char)) (ts : List Char) (b : Bool) :
    wstate b (headerText fmt w l c metas ts) = false := by
  unfold headerText
  rw [wstate_append]
  rfl

/- ------------------------------------------------------------------ -/
/- `_single_file_header`                                               -/
/- ------------------------------------------------------------------ -/

/-- The per-item metadata record built by `grab` at write time. -/
structure Meta where
  video_id : List Char
  title : List Char
  url : List Char
  language : List Char

/-- The auxiliary `video-id:`/`url:`/`title:` block of
`_single_file_header`: `"\n".join(aux_lines) + "\n\n"`. -/
def auxTxt (fmt : Format) (m : Meta) : List Char :=
  joinNL [pre fmt ++ sL "video-id: " ++ m.video_id,
    pre fmt ++ sL "url:      " ++ m.url,
    pre fmt ++ sL "title:    " ++ m.title] ++ sL "\n\n"

theorem wstate_auxTxt (fmt : Format) (m : Meta) (b : Bool) :
    wstate b (auxTxt fmt m) = false := by
  unfold auxTxt
  rw [wstate_append]
  rfl

/-- Embedding of `header._single_file_header(fmt, body_txt, meta)` with frozen
timestamp `ts`: converge a header over the combined aux + body triple and
return `header + aux + body`. -/
def singleFileHeader (fmt : Format) (body : List Char) (m : Meta)
    (ts : List Char) : List Char :=
  (fixupLoop fmt [] ts (tadd (stats body) (stats (auxTxt fmt m)))).1 ++
    (auxTxt fmt m ++ body)

/-- The whole document written by `_single_file_header` has exactly the
stats triple printed in its header line, and decomposes as that header
followed by the aux block and the body. -/
theorem singleFileHeader_spec (fmt : Format) (body : List Char) (m : Meta)
    (ts : List Char) :
    stats (singleFileHeader fmt body m ts) =
      ((fixupLoop fmt [] ts (tadd (stats body) (stats (auxTxt fmt m)))).2.1,
       (fixupLoop fmt [] ts (tadd (stats body) (stats (auxTxt fmt m)))).2.2.1,
       (fixupLoop fmt [] ts (tadd (stats body) (stats (auxTxt fmt m)))).2.2.2.1) ∧
    singleFileHeader fmt body m ts =
      headerText fmt
        (fixupLoop fmt [] ts (tadd (stats body) (stats (auxTxt fmt m)))).2.1
        (fixupLoop fmt [] ts (tadd (stats body) (stats (auxTxt fmt m)))).2.2.1
        (fixupLoop fmt [] ts (tadd (stats body) (stats (auxTxt fmt m)))).2.2.2.1
        [] ts ++ (auxTxt fmt m ++ body) := by
  obtain ⟨hhdr, hw, hl, hc⟩ :=
    fixupLoop_fixed fmt [] ts (tadd (stats body) (stats (auxTxt fmt m)))
  constructor
  · unfold singleFileHeader
    rw [stats_append_of_wstate (by rw [hhdr]; exact wstate_headerText ..),
      stats_append_of_wstate (wstate_auxTxt fmt m false)]
    refine Prod.ext ?_ (Prod.ext ?_ ?_)
    · show (stats _).1 + ((stats (auxTxt fmt m)).1 + (stats body).1) = _
      rw [hw]
      simp [tadd]
      omega
    · show (stats _).2.1 + ((stats (auxTxt fmt m)).2.1 + (stats body).2.1) = _
      rw [hl]
      simp [tadd]
      omega
    · show (stats _).2.2 + ((stats (auxTxt fmt m)).2.2 + (stats body).2.2) = _
      rw [hc]
      simp [tadd]
      omega
  · unfold singleFileHeader
    rw [hhdr]

/- ------------------------------------------------------------------ -/
/- Claim C8: the stats engine                                          -/
/- ------------------------------------------------------------------ -/

/-- Helper for the spec-side run decomposition: scans the text carrying the
current (reversed) non-whitespace run, emitting it whenever whitespace or
the end of the text is reached. -/
def runsAux : Option (List Char) → List Char → List (List Char)
  | none, [] => []
  | some r, [] => [r.reverse]
  | none, c :: cs => if isWS c then runsAux none cs else runsAux (some [c]) cs
  | some r, c :: cs =>
    if isWS c then r.reverse :: runsAux none cs
    else runsAux (some (c :: r)) cs

/-- Spec-side characterization (refinement target, following the spec\'s
words): the maximal whitespace-delimited non-empty runs of a text, in
order. -/
def specMaximalRuns (t : List Char) : List (List Char) := runsAux none t

theorem runsAux_length (t : List Char) :
    (runsAux none t).length = wordsAux false t ∧
      ∀ r : List Char, (runsAux (some r) t).length = 1 + wordsAux true t := by
  induction t with
  | nil => exact ⟨rfl, fun r => rfl⟩
  | cons c cs ih =>
    by_cases hc : isWS c = true
    · refine ⟨?_, fun r => ?_⟩
      · simp [runsAux, wordsAux, hc, ih.1]
      · simp [runsAux, wordsAux, hc, ih.1]
        omega
    · refine ⟨?_, fun r => ?_⟩
      · simp [runsAux, wordsAux, hc, ih.2]
      · simp [runsAux, wordsAux, hc, ih.2]

theorem countWords_eq_specMaximalRuns (t : List Char) :
    countWords t = (specMaximalRuns t).length :=
  (runsAux_length t).1.symm

theorem runsAux_blocks (t : List Char) :
    (∀ x ∈ runsAux none t, IsBlock x) ∧
      ∀ r : List Char, r ≠ [] → (∀ c ∈ r, isWS c = false) →
        ∀ x ∈ runsAux (some r) t, IsBlock x := by
  induction t with
  | nil =>
    refine ⟨by simp [runsAux], fun r hne hws x hx => ?_⟩
    simp only [runsAux, List.mem_singleton] at hx
    subst hx
    exact ⟨by simpa using hne, fun c hc => hws c (List.mem_reverse.mp hc)⟩
  | cons c cs ih =>
    constructor
    · intro x hx
      by_cases hc : isWS c = true
      · rw [show runsAux none (c :: cs) = runsAux none cs by
          simp [runsAux, hc]] at hx
        exact ih.1 x hx
      · simp only [Bool.not_eq_true] at hc
        rw [show runsAux none (c :: cs) = runsAux (some [c]) cs by
          simp [runsAux, hc]] at hx
        exact ih.2 [c] (by simp) (by simpa using hc) x hx
    · intro r hne hws x hx
      by_cases hc : isWS c = true
      · rw [show runsAux (some r) (c :: cs) =
            r.reverse :: runsAux none cs by simp [runsAux, hc]] at hx
        rcases List.mem_cons.mp hx with h | h
        · subst h
          exact ⟨by simpa using hne, fun a ha => hws a (List.mem_reverse.mp ha)⟩
        · exact ih.1 x h
      · simp only [Bool.not_eq_true] at hc
        rw [show runsAux (some r) (c :: cs) = runsAux (some (c :: r)) cs by
          simp [runsAux, hc]] at hx
        refine ih.2 (c :: r) (by simp) ?_ x hx
        intro a ha
        rcases List.mem_cons.mp ha with h | h
        · subst h; exact hc
        · exact hws a h

theorem specMaximalRuns_blocks (t : List Char) :
    ∀ r ∈ specMaximalRuns t, IsBlock r :=
  (runsAux_blocks t).1

/-- C8: `stats` is total and, for every text `t`, returns `chars` equal to
the number of code points of `t`, `words` equal to the number of maximal
non-empty whitespace-delimited runs (each reported run being nonempty and
whitespace-free), and `lines` equal to the number of line-break characters
of `t` — in particular a text with no line breaks reports `lines = 0`, and
a text with `N` embedded breaks and no trailing break reports `lines = N`
(the count of `'\n'` characters, not `N + 1`). -/
theorem C8_stats_characterization (t : List Char) :
    (stats t).2.2 = t.length ∧
    (stats t).1 = (specMaximalRuns t).length ∧
    (∀ r ∈ specMaximalRuns t, r ≠ [] ∧ ∀ c ∈ r, isWS c = false) ∧
    (stats t).2.1 = t.count '\n' ∧
    ((∀ c ∈ t, c ≠ '\n') → (stats t).2.1 = 0) := by
  refine ⟨rfl, countWords_eq_specMaximalRuns t,
    specMaximalRuns_blocks t, rfl, ?_⟩
  intro h
  exact List.count_eq_zero.mpr (fun hmem => h '\n' hmem rfl)

/- ------------------------------------------------------------------ -/
/- Claim C3: `_fixup_loop` terminates and is self-consistent           -/
/- ------------------------------------------------------------------ -/

/-- C3: for every body triple, format, manifest list (and frozen
timestamp), `_fixup_loop` reaches its fixed point within the 10 rendering
rounds (the convergence warning is never emitted), and the returned
triple `(W, L, C)` is the body triple plus the `stats` of the returned
header text, which is exactly the header rendered at `(W, L, C)` — the
triple printed inside the header. -/
theorem C3_fixup_loop_converges (fmt : Format)
    (metas : List (List Char × List Char)) (ts : List Char)
    (body : Nat × Nat × Nat) :
    (fixupLoop fmt metas ts body).2.2.2.2 = true ∧
    (fixupLoop fmt metas ts body).1 =
      headerText fmt (fixupLoop fmt metas ts body).2.1
        (fixupLoop fmt metas ts body).2.2.1
        (fixupLoop fmt metas ts body).2.2.2.1 metas ts ∧
    (fixupLoop fmt metas ts body).2.1 =
      body.1 + (stats (fixupLoop fmt metas ts body).1).1 ∧
    (fixupLoop fmt metas ts body).2.2.1 =
      body.2.1 + (stats (fixupLoop fmt metas ts body).1).2.1 ∧
    (fixupLoop fmt metas ts body).2.2.2.1 =
      body.2.2 + (stats (fixupLoop fmt metas ts body).1).2.2 :=
  ⟨fixupLoop_flag fmt metas ts body, fixupLoop_fixed fmt metas ts body⟩

/- ------------------------------------------------------------------ -/
/- Claim C7: single-file documents are self-consistent                 -/
/- ------------------------------------------------------------------ -/

/-- C7: for every format, body text and meta record (and frozen
timestamp), `stats` of the full document returned by
`_single_file_header` — header, auxiliary id/url/title block and body —
equals the `(words, lines, chars)` triple printed in the document's
stats header line (the document decomposes as the header rendered at
exactly that triple, followed by the aux block and the body). -/
theorem C7_single_file_header_round_trip (fmt : Format) (body : List Char)
    (m : Meta) (ts : List Char) :
    stats (singleFileHeader fmt body m ts) =
      ((fixupLoop fmt [] ts (tadd (stats body) (stats (auxTxt fmt m)))).2.1,
       (fixupLoop fmt [] ts (tadd (stats body) (stats (auxTxt fmt m)))).2.2.1,
       (fixupLoop fmt [] ts (tadd (stats body) (stats (auxTxt fmt m)))).2.2.2.1) ∧
    singleFileHeader fmt body m ts =
      headerText fmt
        (fixupLoop fmt [] ts (tadd (stats body) (stats (auxTxt fmt m)))).2.1
        (fixupLoop fmt [] ts (tadd (stats body) (stats (auxTxt fmt m)))).2.2.1
        (fixupLoop fmt [] ts (tadd (stats body) (stats (auxTxt fmt m)))).2.2.2.1
        [] ts ++ (auxTxt fmt m ++ body) :=
  singleFileHeader_spec fmt body m ts

/- ------------------------------------------------------------------ -/
/- JSON stats embedding (`grab`'s per-file loop, `_flush_json`)        -/
/- ------------------------------------------------------------------ -/

/-- Serialization context for one JSON payload whose fields other than
`stats` are fixed.  `json.dumps(payload, indent=2, ensure_ascii=False)` of a
dict whose `stats` entry is `{"words": w, "lines": l, "chars": c}` factors
as `A ++ digits(w) ++ B ++ digits(l) ++ C ++ digits(c) ++ D` where the
context pieces `A`/`B`/`C`/`D` (braces, keys, indentation, the other
fields, and any trailing newline appended before measuring) do not depend
on the three numbers — Python renders an int as its plain decimal digits.
`E` is the serialization of the same payload without a `stats` key. -/
structure JsonCtx where
  A : List Char
  B : List Char
  C : List Char
  D : List Char
  E : List Char

/-- The serialized payload carrying the stats triple `m`. -/
def dumpWith (ctx : JsonCtx) (m : Nat × Nat × Nat) : List Char :=
  ctx.A ++ (pyNatStr m.1 ++ (ctx.B ++ (pyNatStr m.2.1 ++
    (ctx.C ++ (pyNatStr m.2.2 ++ ctx.D)))))

/-- The serialized payload with an optional stats field (`none`: the
payload has no `stats` key yet). -/
def dumpOpt (ctx : JsonCtx) : Option (Nat × Nat × Nat) → List Char
  | none => ctx.E
  | some m => dumpWith ctx m

/-- Words of the serialized payload: independent of the stats numbers. -/
def JW (ctx : JsonCtx) : Nat := countWords (dumpWith ctx (0, 0, 0))

/-- Line count of the serialized payload: independent of the numbers. -/
def JL (ctx : JsonCtx) : Nat := (dumpWith ctx (0, 0, 0)).count '\n'

/-- Character count of the serialized payload minus the three figures. -/
def JC (ctx : JsonCtx) : Nat :=
  ctx.A.length + ctx.B.length + ctx.C.length + ctx.D.length

theorem stats_dumpWith (ctx : JsonCtx) (m : Nat × Nat × Nat) :
    stats (dumpWith ctx m) =
      (JW ctx, JL ctx, JC ctx + (numLen m.1 + numLen m.2.1 + numLen m.2.2)) := by
  refine Prod.ext ?_ (Prod.ext ?_ ?_)
  · show countWords _ = JW ctx
    unfold JW countWords dumpWith
    exact wordsAux_three_blocks (block_pyNatStr m.1) (block_pyNatStr m.2.1)
      (block_pyNatStr m.2.2) (block_pyNatStr 0) (block_pyNatStr 0)
      (block_pyNatStr 0) false _ _ _ _
  · show (dumpWith ctx m).count '\n' = JL ctx
    unfold JL dumpWith
    simp only [List.count_append,
      count_nl_of_block (block_pyNatStr m.1),
      count_nl_of_block (block_pyNatStr m.2.1),
      count_nl_of_block (block_pyNatStr m.2.2),
      count_nl_of_block (block_pyNatStr 0)]
  · show (dumpWith ctx m).length = _
    unfold dumpWith JC
    simp only [List.length_append, length_pyNatStr]
    ring

/-- One iteration of the stats-embedding loops of `grab` (json branch) and
`_flush_json`: serialize the payload, measure it, compare with the
embedded stats; on a match stop (`true`: Python's `break` — the embedded
stats equal the measurement of the exact text), otherwise store the
measurement and continue.  `fuel` bounds the number of iterations
(`range(3)` in `grab`; for the unbounded `while True:` loops of
`_flush_json` any sufficiently large fuel reproduces the loop). -/
def statsFixLoop (ctx : JsonCtx) :
    Nat → Option (Nat × Nat × Nat) → Option (Nat × Nat × Nat) × Bool
  | 0, s => (s, false)
  | fuel + 1, s =>
    let m := stats (dumpOpt ctx s)
    if s = some m then (s, true)
    else statsFixLoop ctx fuel (some m)

/-- When the loop stops via its fixed-point test, the embedded stats equal
`stats` of the exact serialized text. -/
theorem statsFixLoop_exit (ctx : JsonCtx) :
    ∀ (fuel : Nat) (s : Option (Nat × Nat × Nat)),
      (statsFixLoop ctx fuel s).2 = true →
      ∃ m, (statsFixLoop ctx fuel s).1 = some m ∧
        stats (dumpOpt ctx (some m)) = m := by
  intro fuel
  induction fuel with
  | zero =>
    intro s h
    simp [statsFixLoop] at h
  | succ fuel ih =>
    intro s h
    by_cases hc : s = some (stats (dumpOpt ctx s))
    · refine ⟨stats (dumpOpt ctx s), ?_, ?_⟩
      · simp [statsFixLoop, if_pos hc]
        exact hc
      · conv_lhs => rw [← hc]
    · rw [show statsFixLoop ctx (fuel + 1) s =
          statsFixLoop ctx fuel (some (stats (dumpOpt ctx s))) by
        simp [statsFixLoop, if_neg hc]] at h ⊢
      exact ih _ h

/-- Decreasing case of the scalar recurrence: from a start at or above its
image, the iteration can only step down, and reaches a fixed point. -/
theorem scalar_desc (φ : Nat → Nat)
    (hmono : ∀ {m n : Nat}, m ≤ n → φ m ≤ φ n) (K : Nat) :
    ∀ x0 : Nat, K + φ x0 ≤ x0 →
      ∃ j, iterF (fun x => K + φ x) (j + 1) x0 =
        iterF (fun x => K + φ x) j x0 := by
  intro x0
  induction x0 using Nat.strong_induction_on with
  | _ x0 ih =>
    intro hle
    by_cases heq : K + φ x0 = x0
    · exact ⟨0, heq⟩
    · have hlt : K + φ x0 < x0 := lt_of_le_of_ne hle heq
      have hnext : K + φ (K + φ x0) ≤ K + φ x0 :=
        Nat.add_le_add_left (hmono hle) K
      obtain ⟨j, hj⟩ := ih (K + φ x0) hlt hnext
      exact ⟨j + 1, hj⟩

/-- The scalar recurrence `x ↦ K + φ x` always reaches a fixed point. -/
theorem scalar_exists (φ : Nat → Nat)
    (hmono : ∀ {m n : Nat}, m ≤ n → φ m ≤ φ n)
    (hdet : ∀ {m n : Nat}, numLen m = numLen n → φ m = φ n)
    (hbound : ∀ n : Nat, φ n ≤ 2 * numLen n)
    (hpos : ∀ n : Nat, 1 ≤ φ n) (K x0 : Nat) :
    ∃ j, iterF (fun x => K + φ x) (j + 1) x0 =
      iterF (fun x => K + φ x) j x0 := by
  rcases le_or_lt (K + φ x0) x0 with h | h
  · exact scalar_desc φ (fun hab => hmono hab) K x0 h
  · obtain ⟨j, _, hj⟩ := scalar_converge φ (fun hab => hmono hab)
      (fun hab => hdet hab) hbound hpos K x0 (le_of_lt h)
    exact ⟨j, hj⟩

/-- The triple-level step of the JSON stats loops: measure the payload
serialized with the current stats triple embedded. -/
def jsonStep (ctx : JsonCtx) (m : Nat × Nat × Nat) : Nat × Nat × Nat :=
  stats (dumpWith ctx m)

theorem statsFixLoop_succ (ctx : JsonCtx) (fuel : Nat)
    (s : Option (Nat × Nat × Nat)) :
    statsFixLoop ctx (fuel + 1) s =
      if s = some (stats (dumpOpt ctx s)) then (s, true)
      else statsFixLoop ctx fuel (some (stats (dumpOpt ctx s))) := rfl

theorem statsFixLoop_some_converged (ctx : JsonCtx) :
    ∀ (fuel : Nat) (m : Nat × Nat × Nat),
      (∃ k < fuel, iterF (jsonStep ctx) (k + 1) m = iterF (jsonStep ctx) k m) →
      (statsFixLoop ctx fuel (some m)).2 = true := by
  intro fuel
  induction fuel with
  | zero =>
    rintro m ⟨k, hk, -⟩
    omega
  | succ fuel ih =>
    rintro m ⟨k, hk, hfix⟩
    by_cases hc : m = jsonStep ctx m
    · have h1 : some m = some (stats (dumpOpt ctx (some m))) :=
        congrArg some hc
      rw [statsFixLoop_succ, if_pos h1]
    · have hk0 : k ≠ 0 := by
        intro h
        subst h
        exact hc (show iterF _ 0 m = iterF _ 1 m from hfix.symm)
      obtain ⟨k', rfl⟩ := Nat.exists_eq_succ_of_ne_zero hk0
      have hne : some m ≠ some (stats (dumpOpt ctx (some m))) := by
        intro h
        exact hc (Option.some.inj h)
      rw [statsFixLoop_succ, if_neg hne]
      exact ih (stats (dumpOpt ctx (some m))) ⟨k', by omega, hfix⟩

/-- The JSON stats-embedding step reaches a fixed point from any start:
after one step the words and lines are pinned (the serialized text's word
and line counts do not depend on the digits of the embedded numbers), and
the character total follows the scalar recurrence `x ↦ K + numLen x`. -/
theorem jsonStep_reaches_fix (ctx : JsonCtx) (m0 : Nat × Nat × Nat) :
    ∃ k, iterF (jsonStep ctx) (k + 1) m0 = iterF (jsonStep ctx) k m0 := by
  set K := JC ctx + numLen (JW ctx) + numLen (JL ctx) with hK
  have hstep : ∀ x : Nat, jsonStep ctx (JW ctx, JL ctx, x) =
      (JW ctx, JL ctx, K + numLen x) := by
    intro x
    unfold jsonStep
    rw [stats_dumpWith]
    refine Prod.ext rfl (Prod.ext rfl ?_)
    show JC ctx + (numLen (JW ctx) + numLen (JL ctx) + numLen x) = K + numLen x
    omega
  set c1 := JC ctx + (numLen m0.1 + numLen m0.2.1 + numLen m0.2.2) with hc1
  have hbase : jsonStep ctx m0 = (JW ctx, JL ctx, c1) := by
    unfold jsonStep
    rw [stats_dumpWith]
  have hform : ∀ n, iterF (jsonStep ctx) (n + 1) m0 =
      (JW ctx, JL ctx, iterF (fun x => K + numLen x) n c1) := by
    intro n
    induction n with
    | zero => exact hbase
    | succ n ih =>
      rw [iterF_succ_right, ih, iterF_succ_right]
      exact hstep _
  obtain ⟨j, hj⟩ := scalar_exists numLen (fun h => numLen_mono h)
    (fun h => h) (fun n => by omega) numLen_pos K c1
  refine ⟨j + 1, ?_⟩
  rw [hform (j + 1), hform j, hj]

/-- C9: the container-level (and per-item) JSON stats convergence of
`_flush_json` — repeatedly serializing the payload, measuring it with
`stats`, and embedding the measured triple until the embedded stats equal
the measurement — terminates for every payload: some finite number of
iterations reaches the fixed point at which the `while True:` loop breaks. -/
theorem C9_flush_json_terminates (ctx : JsonCtx)
    (s0 : Option (Nat × Nat × Nat)) :
    ∃ fuel, (statsFixLoop ctx fuel s0).2 = true := by
  by_cases hc : s0 = some (stats (dumpOpt ctx s0))
  · exact ⟨1, by simp [statsFixLoop, if_pos hc]⟩
  · obtain ⟨k, hk⟩ := jsonStep_reaches_fix ctx (stats (dumpOpt ctx s0))
    refine ⟨(k + 1) + 1, ?_⟩
    rw [show statsFixLoop ctx (k + 1 + 1) s0 =
        statsFixLoop ctx (k + 1) (some (stats (dumpOpt ctx s0))) by
      simp [statsFixLoop, if_neg hc]]
    exact statsFixLoop_some_converged ctx (k + 1) (stats (dumpOpt ctx s0))
      ⟨k, by omega, hk⟩

/- ------------------------------------------------------------------ -/
/- Concatenation engine (non-JSON path of `_main`)                     -/
/- ------------------------------------------------------------------ -/

/-- The split unit suffix `w|l|c` of `--split`. -/
inductive SplitUnit
  | w | l | c
  deriving DecidableEq

/-- Projection of a stats triple on the configured split unit. -/
def unitVal (u : SplitUnit) (t : Nat × Nat × Nat) : Nat :=
  match u with
  | .w => t.1
  | .l => t.2.1
  | .c => t.2.2

/-- The visual separator written before every item:
`f"\n──── {v} ── {t[:50]} ─────────────────────────\n"`. -/
def sep (vid title : List Char) : List Char :=
  sL "\n──── " ++ vid ++ sL " ── " ++ title.take 50 ++
    sL " ─────────────────────────\n"

/-- One output segment of the concatenation engine: the text written to
its file (before the optional header prepend), the per-item body texts
appended into it, the running `w_tot/l_tot/c_tot` accumulator at close,
and its manifest `meta_list`. -/
structure ConcatSeg where
  content : List Char
  pieces : List (List Char)
  tot : Nat × Nat × Nat
  metas : List (List Char × List Char)
  deriving DecidableEq

/-- A fresh, just-opened segment. -/
def emptySeg : ConcatSeg := ⟨[], [], (0, 0, 0), []⟩

/-- The engine state: already rolled-over segments plus the open one. -/
structure ConcatState where
  closed : List ConcatSeg
  cur : ConcatSeg
  deriving DecidableEq

/-- The `exceed` predicate of `_main` (truthy `split_limit and (unit
comparison)`; a `split_limit` of `None` or `0` is falsy). -/
def exceedB (limit : Option Nat) (u : SplitUnit)
    (pred : Nat × Nat × Nat) : Bool :=
  match limit with
  | none => false
  | some L => decide (L ≠ 0) && decide (L < unitVal u pred)

/-- Truthiness of `(w_tot or l_tot or c_tot)`. -/
def totNonzero (t : Nat × Nat × Nat) : Bool :=
  decide (t.1 ≠ 0) || decide (t.2.1 ≠ 0) || decide (t.2.2 ≠ 0)

/-- One iteration of the non-JSON concatenation loop of `_main`
(cli.py 944-970): write the separator into the open segment, predict the
post-append accumulator from the piece's stats, roll over when the
prediction exceeds the limit and the accumulator is non-empty (the
just-written separator stays in the closed file; the piece goes to the
fresh one), then append the piece and account its stats.  The
recomputation of `pred_w/pred_l/pred_c` after a rollover (cli.py 961-965)
stores into variables that are never read again and has no observable
effect, so it is not modelled. -/
def concatStep (limit : Option Nat) (u : SplitUnit) (st : ConcatState)
    (item : List Char × List Char × List Char) : ConcatState :=
  let vid := item.1
  let title := item.2.1
  let piece := item.2.2
  let withSep := st.cur.content ++ sep vid title
  let b := stats piece
  let pred := tadd st.cur.tot b
  if exceedB limit u pred && totNonzero st.cur.tot then
    { closed := st.closed ++ [{ st.cur with content := withSep }],
      cur := ⟨piece, [piece], b, [(vid, title)]⟩ }
  else
    { st with cur := ⟨withSep ++ piece, st.cur.pieces ++ [piece],
        pred, st.cur.metas ++ [(vid, title)]⟩ }

/-- The whole non-JSON concatenation pass: fold the items in enumerator
order and close the final segment. -/
def concatRun (limit : Option Nat) (u : SplitUnit)
    (items : List (List Char × List Char × List Char)) : List ConcatSeg :=
  let st := items.foldl (concatStep limit u) ⟨[], emptySeg⟩
  st.closed ++ [st.cur]

/-- The text a segment's file holds after the run: with stats enabled the
converged header for the segment's accumulator and manifest is prepended
as the last write (`_rollover` / end-of-stream, cli.py 928-942, 972-976). -/
def segWritten (fmt : Format) (ts : List Char) (statsFlag : Bool)
    (seg : ConcatSeg) : List Char :=
  if statsFlag then (fixupLoop fmt seg.metas ts seg.tot).1 ++ seg.content
  else seg.content

/-- The triple printed inside a segment's prepended header. -/
def segDeclared (fmt : Format) (ts : List Char) (seg : ConcatSeg) :
    Nat × Nat × Nat :=
  ((fixupLoop fmt seg.metas ts seg.tot).2.1,
   (fixupLoop fmt seg.metas ts seg.tot).2.2.1,
   (fixupLoop fmt seg.metas ts seg.tot).2.2.2.1)

/-- Sum of the stats triples of a list of texts. -/
def sumStats (ps : List (List Char)) : Nat × Nat × Nat :=
  ps.foldl (fun acc p => tadd acc (stats p)) (0, 0, 0)

/- ------------------------------------------------------------------ -/
/- JSON concatenation grouping (`_flush_json` caller loop)             -/
/- ------------------------------------------------------------------ -/

/-- One iteration of the JSON concatenation loop of `_main`
(cli.py 881-914): measure the per-item file text, flush the accumulated
objects first when the prediction exceeds the limit and the accumulator
is nonempty, then append.  State: flushed groups and the open group,
each group being the list of per-item file texts with their accumulated
stats total. -/
def jsonConcatStep (limit : Option Nat) (u : SplitUnit)
    (st : List (List (List Char)) × List (List Char) × (Nat × Nat × Nat))
    (objTxt : List Char) :
    List (List (List Char)) × List (List Char) × (Nat × Nat × Nat) :=
  let p := stats objTxt
  let exceed := exceedB limit u (tadd st.2.2 p)
  if exceed && decide (st.2.1 ≠ []) then
    (st.1 ++ [st.2.1], [objTxt], p)
  else
    (st.1, st.2.1 ++ [objTxt], tadd st.2.2 p)

/-- The initial state of the JSON grouping loop. -/
def jsonInit : List (List (List Char)) × List (List Char) × (Nat × Nat × Nat) :=
  ([], [], (0, 0, 0))

/-- The JSON grouping pass: groups of per-item texts flushed into the
numbered container files (`_flush_json` is called on each group; the
final nonempty group is flushed at the end). -/
def jsonConcatGroups (limit : Option Nat) (u : SplitUnit)
    (objTxts : List (List Char)) : List (List (List Char)) :=
  let st := objTxts.foldl (jsonConcatStep limit u) jsonInit
  if st.2.1 ≠ [] then st.1 ++ [st.2.1] else st.1

theorem foldl_preserves {α β : Type} (f : α → β → α) (P : α → Prop)
    (hf : ∀ a b, P a → P (f a b)) :
    ∀ (l : List β) (a : α), P a → P (List.foldl f a l) := by
  intro l
  induction l with
  | nil => intro a h; exact h
  | cons b bs ih => intro a h; exact ih (f a b) (hf a b h)

theorem sumStats_concat (ps : List (List Char)) (p : List Char) :
    sumStats (ps ++ [p]) = tadd (sumStats ps) (stats p) := by
  simp [sumStats, List.foldl_append]

theorem tadd_eq_zero {a b : Nat × Nat × Nat}
    (h : tadd a b = (0, 0, 0)) : a = (0, 0, 0) ∧ b = (0, 0, 0) := by
  obtain ⟨a1, a2, a3⟩ := a
  obtain ⟨b1, b2, b3⟩ := b
  simp [tadd, Prod.ext_iff] at h ⊢
  omega

theorem sumStats_zero :
    ∀ (ps : List (List Char)) (acc : Nat × Nat × Nat),
      ps.foldl (fun acc p => tadd acc (stats p)) acc = (0, 0, 0) →
      acc = (0, 0, 0) ∧ ∀ p ∈ ps, stats p = (0, 0, 0) := by
  intro ps
  induction ps with
  | nil =>
    intro acc h
    exact ⟨h, by simp⟩
  | cons p ps ih =>
    intro acc h
    have h2 := ih (tadd acc (stats p)) h
    obtain ⟨hz, hrest⟩ := h2
    obtain ⟨ha, hp⟩ := tadd_eq_zero hz
    refine ⟨ha, ?_⟩
    intro q hq
    rcases List.mem_cons.mp hq with h | h
    · subst h; exact hp
    · exact hrest q h

/-- Accounting invariant plus split-cap invariant for the running state of
the non-JSON concatenation loop. -/
def ConcatInv (limit : Option Nat) (u : SplitUnit) (st : ConcatState) : Prop :=
  (st.cur.tot = sumStats st.cur.pieces ∧
    ∀ s ∈ st.closed, s.tot = sumStats s.pieces) ∧
  ((∀ L, limit = some L → 0 < L →
      (unitVal u st.cur.tot ≤ L ∨
        ∀ p ∈ st.cur.pieces.dropLast, stats p = (0, 0, 0))) ∧
    ∀ s ∈ st.closed, ∀ L, limit = some L → 0 < L →
      (unitVal u s.tot ≤ L ∨ ∀ p ∈ s.pieces.dropLast, stats p = (0, 0, 0)))

theorem concatStep_inv (limit : Option Nat) (u : SplitUnit)
    (st : ConcatState) (item : List Char × List Char × List Char)
    (h : ConcatInv limit u st) :
    ConcatInv limit u (concatStep limit u st item) := by
  obtain ⟨⟨htot, hclosed⟩, hcap, hcapc⟩ := h
  unfold concatStep
  by_cases hcond : (exceedB limit u (tadd st.cur.tot (stats item.2.2)) &&
      totNonzero st.cur.tot) = true
  · rw [if_pos hcond]
    refine ⟨⟨?_, ?_⟩, ?_, ?_⟩
    · show stats item.2.2 = sumStats [item.2.2]
      simp [sumStats, tadd, stats]
    · intro s hs
      rcases List.mem_append.mp hs with h | h
      · exact hclosed s h
      · simp at h
        subst h
        exact htot
    · intro L hL hL0
      right
      simp
    · intro s hs L hL hL0
      rcases List.mem_append.mp hs with h | h
      · exact hcapc s h L hL hL0
      · simp at h
        subst h
        exact hcap L hL hL0
  · rw [if_neg hcond]
    refine ⟨⟨?_, hclosed⟩, ?_, ?_⟩
    · show tadd st.cur.tot (stats item.2.2) =
        sumStats (st.cur.pieces ++ [item.2.2])
      rw [sumStats_concat, htot]
    · intro L hL hL0
      subst hL
      rcases Bool.and_eq_false_iff.mp (Bool.not_eq_true _ ▸ hcond) with hex | hnz
      · left
        show unitVal u (tadd st.cur.tot (stats item.2.2)) ≤ L
        unfold exceedB at hex
        simp at hex
        omega
      · right
        show ∀ p ∈ (st.cur.pieces ++ [item.2.2]).dropLast, stats p = (0, 0, 0)
        have hz : st.cur.tot = (0, 0, 0) := by
          unfold totNonzero at hnz
          simp only [Bool.or_eq_false_iff, decide_eq_false_iff_not,
            Decidable.not_not] at hnz
          exact Prod.ext hnz.1.1 (Prod.ext hnz.1.2 hnz.2)
        have hall := (sumStats_zero st.cur.pieces (0, 0, 0) (by
          rw [← sumStats]; rw [← htot]; exact hz)).2
        intro p hp
        rw [List.dropLast_concat] at hp
        exact hall p hp
    · intro s hs L hL hL0
      exact hcapc s hs L hL hL0

theorem concatRun_inv (limit : Option Nat) (u : SplitUnit)
    (items : List (List Char × List Char × List Char)) :
    ∀ seg ∈ concatRun limit u items,
      seg.tot = sumStats seg.pieces ∧
      ∀ L, limit = some L → 0 < L →
        (unitVal u seg.tot ≤ L ∨
          ∀ p ∈ seg.pieces.dropLast, stats p = (0, 0, 0)) := by
  intro seg hseg
  have hinv := foldl_preserves (concatStep limit u) (ConcatInv limit u)
    (fun a b h => concatStep_inv limit u a b h) items ⟨[], emptySeg⟩
    ⟨⟨rfl, by simp⟩, fun L hL hL0 => Or.inr (by simp [emptySeg]),
      by simp⟩
  obtain ⟨⟨htot, hclosed⟩, hcap, hcapc⟩ := hinv
  unfold concatRun at hseg
  rcases List.mem_append.mp hseg with h | h
  · exact ⟨hclosed seg h, fun L hL hL0 => hcapc seg h L hL hL0⟩
  · simp at h
    subst h
    exact ⟨htot, hcap⟩

/-- Accounting and split-cap invariant for the JSON grouping loop. -/
def JsonInv (limit : Option Nat) (u : SplitUnit)
    (st : List (List (List Char)) × List (List Char) × (Nat × Nat × Nat)) :
    Prop :=
  (st.2.2 = sumStats st.2.1) ∧
  (∀ L, limit = some L → 0 < L →
    (unitVal u st.2.2 ≤ L ∨ st.2.1.length ≤ 1)) ∧
  (∀ g ∈ st.1, ∀ L, limit = some L → 0 < L →
    (unitVal u (sumStats g) ≤ L ∨ g.length = 1))

theorem jsonConcatStep_inv (limit : Option Nat) (u : SplitUnit)
    (st : List (List (List Char)) × List (List Char) × (Nat × Nat × Nat))
    (objTxt : List Char) (h : JsonInv limit u st) :
    JsonInv limit u (jsonConcatStep limit u st objTxt) := by
  obtain ⟨htot, hcap, hgroups⟩ := h
  unfold jsonConcatStep
  by_cases hcond : (exceedB limit u (tadd st.2.2 (stats objTxt)) &&
      decide (st.2.1 ≠ [])) = true
  · rw [if_pos hcond]
    refine ⟨?_, ?_, ?_⟩
    · show stats objTxt = sumStats [objTxt]
      simp [sumStats, tadd, stats]
    · intro L hL hL0
      right
      simp
    · intro g hg L hL hL0
      rcases List.mem_append.mp hg with hmem | hmem
      · exact hgroups g hmem L hL hL0
      · simp at hmem
        subst hmem
        have hne : st.2.1 ≠ [] := by
          have h2 := hcond
          simp only [Bool.and_eq_true, decide_eq_true_eq] at h2
          exact h2.2
        rcases hcap L hL hL0 with hle | hlen
        · left
          exact htot ▸ hle
        · right
          have : 1 ≤ st.2.1.length := by
            cases hq : st.2.1 with
            | nil => exact absurd hq hne
            | cons a b => simp
          omega
  · rw [if_neg hcond]
    refine ⟨?_, ?_, hgroups⟩
    · show tadd st.2.2 (stats objTxt) = sumStats (st.2.1 ++ [objTxt])
      rw [sumStats_concat, htot]
    · intro L hL hL0
      subst hL
      rcases Bool.and_eq_false_iff.mp (Bool.not_eq_true _ ▸ hcond) with hex | hne
      · left
        show unitVal u (tadd st.2.2 (stats objTxt)) ≤ L
        unfold exceedB at hex
        simp at hex
        omega
      · right
        have : st.2.1 = [] := by simpa using hne
        simp [this]

theorem jsonConcatGroups_cap (limit : Option Nat) (u : SplitUnit)
    (objTxts : List (List Char)) :
    ∀ g ∈ jsonConcatGroups limit u objTxts, ∀ L, limit = some L → 0 < L →
      (unitVal u (sumStats g) ≤ L ∨ g.length = 1) := by
  intro g hg L hL hL0
  have hinv := foldl_preserves (jsonConcatStep limit u) (JsonInv limit u)
    (fun a b h => jsonConcatStep_inv limit u a b h) objTxts jsonInit
    ⟨rfl, fun L hL hL0 => Or.inr (by simp [jsonInit]), by simp [jsonInit]⟩
  obtain ⟨htot, hcap, hgroups⟩ := hinv
  unfold jsonConcatGroups at hg
  by_cases hne : (objTxts.foldl (jsonConcatStep limit u) jsonInit).2.1 ≠ []
  · rw [if_pos hne] at hg
    rcases List.mem_append.mp hg with hmem | hmem
    · exact hgroups g hmem L hL hL0
    · simp at hmem
      subst hmem
      rcases hcap L hL hL0 with hle | hlen
      · left
        exact htot ▸ hle
      · right
        have h1 : 1 ≤ (objTxts.foldl (jsonConcatStep limit u)
            jsonInit).2.1.length := by
          cases hq : (objTxts.foldl (jsonConcatStep limit u) jsonInit).2.1 with
          | nil => exact absurd hq hne
          | cons a b => simp
        omega
  · rw [if_neg hne] at hg
    exact hgroups g hg L hL hL0

/- ------------------------------------------------------------------ -/
/- `grab`: written documents, proxy acquisition, statuses              -/
/- ------------------------------------------------------------------ -/

/-- Embedding of `include_stats=args.stats and not args.concat` (cli.py 642): the
per-item stats switch passed by `_main` to every `grab` task. -/
def includeStatsArg (statsFlag concatFlag : Bool) : Bool :=
  statsFlag && !concatFlag

/-- The json branch of `grab` (core.py 190-215): when `include_stats`,
run the bounded (`range(3)`) stats-embedding loop starting from a payload
with no `stats` key, then serialize the final payload (the trailing
newline the code appends before measuring and writing is part of the
context's `D`/`E`).  Returns the written text, the embedded stats field,
and whether the loop converged (hit its `break`). -/
def grabJson (ctx : JsonCtx) (include_stats : Bool) :
    List Char × Option (Nat × Nat × Nat) × Bool :=
  if include_stats then
    ((dumpOpt ctx (statsFixLoop ctx 3 none).1),
      (statsFixLoop ctx 3 none).1, (statsFixLoop ctx 3 none).2)
  else (dumpOpt ctx none, none, true)

/-- The document `grab` writes to the per-item file (core.py 219-224):
JSON and stats-disabled documents are dumped verbatim; otherwise the body
is wrapped by `_single_file_header`. -/
def grabWritten (fmt : Format) (include_stats : Bool) (ctx : JsonCtx)
    (data : List Char) (m : Meta) (ts : List Char) : List Char :=
  if fmt = .json then (grabJson ctx include_stats).1
  else if include_stats then singleFileHeader fmt data m ts
  else data

/-- When `grab`'s bounded json loop converged, the written file's stats
equal the embedded stats object. -/
theorem grabJson_consistent (ctx : JsonCtx)
    (h : (grabJson ctx true).2.2 = true) :
    ∃ m, (grabJson ctx true).2.1 = some m ∧ stats (grabJson ctx true).1 = m := by
  have hflag : (statsFixLoop ctx 3 none).2 = true := by
    simpa [grabJson] using h
  obtain ⟨m, hm, hs⟩ := statsFixLoop_exit ctx 3 none hflag
  refine ⟨m, by simpa [grabJson] using hm, ?_⟩
  show stats (dumpOpt ctx (statsFixLoop ctx 3 none).1) = m
  rw [hm]
  exact hs

/-- The transport invocation built by one `grab` attempt. -/
structure FetchCall where
  proxy_config : Option (List Char)
  languages : List (List Char)
  deriving DecidableEq

/-- Embedding of `languages=list(langs) if langs else ["en"]`. -/
def langsOr (langs : List (List Char)) : List (List Char) :=
  if langs = [] then [sL "en"] else langs

/-- The candidate-sampling loop of `grab` (core.py 146-151): up to five
`proxy_pool.get()` calls (`spin < 5`), stopping at the first candidate not
in the ban set; `σ k` is the result of the `k`-th `get()` call (the pool's
rotation lives in the external swiftshadow dependency).  `fuel` counts the
remaining loop iterations including the current one; on exhaustion the
last sampled candidate is returned (still banned). -/
def spinGo (σ : Nat → List Char) (banned : List (List Char)) :
    Nat → Nat → List Char
  | i, 0 => σ i
  | i, fuel + 1 =>
    if σ i ∈ banned then
      (if fuel = 0 then σ i else spinGo σ banned (i + 1) fuel)
    else σ i

/-- The value `addr` holds after the sampling loop. -/
def spinAcquire (σ : Nat → List Char) (banned : List (List Char)) :
    List Char :=
  spinGo σ banned 0 5

/-- The acquisition step of one `grab` attempt (core.py 143-172): with a
pool, sample via `spinAcquire`; if the sampled candidate is banned, the
attempt terminates with `proxy_fail` before any fetch (`none`).
Otherwise the transport is constructed and the fetch made: the result
carries the acquired pool endpoint (used for the log label and the ban
set) and the `FetchCall`.  In the pool branch the local `proxy` variable
is never assigned, so the transport is constructed with
`proxy_config=None`; only the single-proxy branch passes `proxy_cfg`. -/
def grabAcquire (hasPool : Bool) (σ : Nat → List Char)
    (proxy_cfg : Option (List Char)) (banned : List (List Char))
    (langs : List (List Char)) :
    Option (Option (List Char) × FetchCall) :=
  if hasPool then
    if spinAcquire σ banned ∈ banned then none
    else some (some (spinAcquire σ banned), ⟨none, langsOr langs⟩)
  else
    match proxy_cfg with
    | some p => some (none, ⟨some p, langsOr langs⟩)
    | none => some (none, ⟨none, langsOr langs⟩)

/-- The terminal statuses of a `DownloadResult`. -/
inductive Status
  | ok | noCaptions | fail | proxy_fail
  deriving DecidableEq

/-- The process exit decision of `_main` (cli.py 1053-1054): `sys.exit(2)`
exactly when the `fail` bucket is nonempty, implicit exit code `0`
otherwise.  `results` is the full per-item result list (pre-computed,
completed and skipped items; skipped items enter as `ok`). -/
def exitCode (results : List Status) : Nat :=
  if results.any (fun r => r = .fail) then 2 else 0

/- ------------------------------------------------------------------ -/
/- Claim C2: process exit codes                                        -/
/- ------------------------------------------------------------------ -/

/-- C2 counterexample: a run whose only item result is `proxy_fail` exits
with code 0 — `_main` calls `sys.exit(2)` only when the `fail` bucket is
nonempty — contradicting the claim that at least one `proxy_fail` forces
a non-zero exit. -/
theorem C2_counterexample : exitCode [Status.proxy_fail] = 0 := rfl

/-- C2 (amended): the process exits 0 iff no item's result is `fail`
(results `ok`, `none`, skipped — and also `proxy_fail` — leave the exit
code 0), and exits with the non-zero code 2 iff at least one item's
result is `fail`. -/
theorem C2_amended_exit_code (results : List Status) :
    (exitCode results = 0 ↔ Status.fail ∉ results) ∧
    (exitCode results = 2 ↔ Status.fail ∈ results) := by
  have hmem : (results.any (fun r => r = Status.fail) = true) ↔
      Status.fail ∈ results := by
    rw [List.any_eq_true]
    constructor
    · rintro ⟨x, hx, he⟩
      have : x = Status.fail := by simpa using he
      exact this ▸ hx
    · intro h
      exact ⟨Status.fail, h, by simp⟩
  unfold exitCode
  by_cases h : results.any (fun r => r = Status.fail) = true
  · rw [if_pos h]
    simp [hmem.mp h]
  · rw [if_neg h]
    have : Status.fail ∉ results := fun hm => h (hmem.mpr hm)
    simp [this]

theorem C2_amended_witness :
    exitCode [Status.proxy_fail, Status.ok] = 0 ∧
    exitCode [Status.ok, Status.fail] = 2 :=
  ⟨(C2_amended_exit_code [Status.proxy_fail, Status.ok]).1.mpr (by decide),
   (C2_amended_exit_code [Status.ok, Status.fail]).2.mpr (by decide)⟩

/- ------------------------------------------------------------------ -/
/- Claim C10: concatenation disables per-item stats                    -/
/- ------------------------------------------------------------------ -/

/-- C10: when the concatenation flag is set, `include_stats` (the
conjunction of the stats flag and the negated concat flag) is false for
every value of the stats flag, so every per-item file written by `grab`
is the bare document: non-JSON formats get the formatter output verbatim
with no stats header, and JSON gets the payload serialized without any
`stats` field. -/
theorem C10_concat_disables_per_item_stats (statsFlag : Bool) (fmt : Format)
    (ctx : JsonCtx) (data : List Char) (m : Meta) (ts : List Char) :
    includeStatsArg statsFlag true = false ∧
    grabWritten fmt (includeStatsArg statsFlag true) ctx data m ts =
      (if fmt = .json then dumpOpt ctx none else data) ∧
    (grabJson ctx (includeStatsArg statsFlag true)).2.1 = none := by
  have h : includeStatsArg statsFlag true = false := by
    cases statsFlag <;> rfl
  refine ⟨h, ?_, ?_⟩
  · rw [h]
    by_cases hf : fmt = Format.json
    · simp [grabWritten, grabJson, hf]
    · simp [grabWritten, hf]
  · rw [h]
    rfl

/- ------------------------------------------------------------------ -/
/- Claim C5: proxy acquisition on a fully banned pool                  -/
/- ------------------------------------------------------------------ -/

/-- A six-endpoint proxy pool. -/
def poolSix : List (List Char) :=
  [sL "p1", sL "p2", sL "p3", sL "p4", sL "p5", sL "p6"]

/-- A round-robin rotation over `poolSix` (the `k`-th `get()` call
returns the `k mod 6`-th endpoint). -/
def sigmaSix (k : Nat) : List Char := poolSix.getD (k % 6) []

/-- Every endpoint of `poolSix` except the last, banned. -/
def bannedFive : List (List Char) :=
  [sL "p1", sL "p2", sL "p3", sL "p4", sL "p5"]

/-- C5 counterexample: a pool of six endpoints rotated round-robin with
the first five banned.  The unbanned endpoint `p6` remains in the pool
(the rotation would return it on the sixth call), yet `grab` terminates
the attempt with `proxy_fail` before any fetch, because its loop samples
at most five candidates (`spin < 5`) — not up to `|pool|` as claimed. -/
theorem C5_counterexample :
    grabAcquire true sigmaSix none bannedFive [] = none ∧
    sL "p6" ∈ poolSix ∧ sL "p6" ∉ bannedFive ∧
    sigmaSix 0 = sL "p1" ∧ sigmaSix 5 = sL "p6" := by decide

theorem spinGo_sample (σ : Nat → List Char) (banned : List (List Char)) :
    ∀ (fuel i : Nat), ∃ k, i ≤ k ∧ k ≤ i + fuel ∧
      spinGo σ banned i (fuel + 1) = σ k := by
  intro fuel
  induction fuel with
  | zero =>
    intro i
    refine ⟨i, le_rfl, by omega, ?_⟩
    by_cases h : σ i ∈ banned <;> simp [spinGo, h]
  | succ fuel ih =>
    intro i
    by_cases h : σ i ∈ banned
    · obtain ⟨k, hk1, hk2, hk3⟩ := ih (i + 1)
      refine ⟨k, by omega, by omega, ?_⟩
      simp only [spinGo]
      rw [if_pos h, if_neg (Nat.succ_ne_zero fuel)]
      exact hk3
    · refine ⟨i, le_rfl, by omega, ?_⟩
      simp only [spinGo]
      rw [if_neg h]

/-- C5 (amended): the acquisition loop of `grab` samples at most five
pool candidates (not up to `|pool|`): whenever the first five samples are
all banned — in particular whenever every endpoint the pool can return
is banned — the attempt returns `proxy_fail` immediately, with no fetch;
and any acquired endpoint is unbanned and among the first five samples. -/
theorem C5_amended_proxy_acquisition (σ : Nat → List Char)
    (cfg : Option (List Char)) (banned : List (List Char))
    (langs : List (List Char)) :
    ((∀ k < 5, σ k ∈ banned) → grabAcquire true σ cfg banned langs = none) ∧
    (∀ addr call, grabAcquire true σ cfg banned langs =
        some (some addr, call) → addr ∉ banned ∧ ∃ k < 5, addr = σ k) := by
  obtain ⟨k0, hk0, hk5, hkeq⟩ := spinGo_sample σ banned 4 0
  constructor
  · intro hall
    have hmem : spinAcquire σ banned ∈ banned := by
      unfold spinAcquire
      rw [hkeq]
      exact hall k0 (by omega)
    unfold grabAcquire
    rw [if_pos rfl, if_pos hmem]
  · intro addr call hres
    unfold grabAcquire at hres
    rw [if_pos rfl] at hres
    by_cases hmem : spinAcquire σ banned ∈ banned
    · rw [if_pos hmem] at hres
      exact absurd hres (by simp)
    · rw [if_neg hmem] at hres
      have haddr : addr = spinAcquire σ banned := by
        have := (Option.some.inj hres)
        have h1 := congrArg Prod.fst this
        simpa using h1.symm
      subst haddr
      exact ⟨hmem, k0, by omega, by unfold spinAcquire; exact hkeq⟩

theorem C5_amended_witness :
    grabAcquire true (fun _ => sL "b1") none [sL "b1"] [] = none :=
  (C5_amended_proxy_acquisition (fun _ => sL "b1") none [sL "b1"] []).1
    (fun k _ => by decide)

/- ------------------------------------------------------------------ -/
/- Claim C6: the acquired endpoint is not applied to the transport     -/
/- ------------------------------------------------------------------ -/

/-- C6 (the code evaluated at the failing input): with a proxy pool whose
first sample `p1` is unbanned, `grab` acquires `p1` (it is labelled, used
and bannable) — but the transport is constructed with
`proxy_config = none`: the `proxy` local of the pool branch is never
assigned from the acquired endpoint, so the fetch is made without the
proxy.  The language preferences default to `["en"]` as documented. -/
theorem C6_pool_proxy_not_applied :
    grabAcquire true (fun _ => sL "p1") none [] [] =
      some (some (sL "p1"), ⟨none, [sL "en"]⟩) := by decide

/- ------------------------------------------------------------------ -/
/- Claim C4: the split cap                                             -/
/- ------------------------------------------------------------------ -/

/-- Two items whose bodies fit the accounted cap. -/
def cexItems : List (List Char × List Char × List Char) :=
  [(sL "v1", sL "t1", sL "ab"), (sL "v2", sL "t2", sL "cd")]

/-- C4 counterexample: with `--split 5c`, two 2-character bodies are
placed in one segment (accounted total 4 ≤ 5), but the emitted segment's
measured stats exceed the cap (86 characters — the separator lines
written before each item are never accounted), and the segment holds two
items, so the single-item exception does not apply. -/
theorem C4_counterexample :
    (concatRun (some 5) SplitUnit.c cexItems).length = 1 ∧
    ((concatRun (some 5) SplitUnit.c cexItems).headD emptySeg).pieces.length = 2 ∧
    5 < (stats (segWritten Format.text [] false
      ((concatRun (some 5) SplitUnit.c cexItems).headD emptySeg))).2.2 := by
  decide

/-- C4 (amended): with a configured positive split limit, the cap governs
the accounted per-item body stats, not the measured stats of the emitted
file (separators and headers are never accounted).  Non-JSON path: every
segment's accumulator equals the sum of its pieces' stats and, in the
configured unit, stays at or below the limit unless every piece before
the segment's last has all-zero stats (rollover never fires on a
zero accumulator, so a lone oversized piece may exceed the cap; any item
after it rolls over).  JSON path: every flushed group's accounted sum is
at most the limit or the group holds exactly one item. -/
theorem C4_amended_split_cap (L : Nat) (hL : 0 < L) (u : SplitUnit)
    (items : List (List Char × List Char × List Char))
    (objTxts : List (List Char)) :
    (∀ seg ∈ concatRun (some L) u items,
      seg.tot = sumStats seg.pieces ∧
      (unitVal u seg.tot ≤ L ∨
        ∀ p ∈ seg.pieces.dropLast, stats p = (0, 0, 0))) ∧
    (∀ g ∈ jsonConcatGroups (some L) u objTxts,
      unitVal u (sumStats g) ≤ L ∨ g.length = 1) := by
  constructor
  · intro seg hseg
    have h := concatRun_inv (some L) u items seg hseg
    exact ⟨h.1, h.2 L rfl hL⟩
  · intro g hg
    exact jsonConcatGroups_cap (some L) u objTxts g hg L rfl hL

theorem C4_amended_witness :
    ((concatRun (some 5) SplitUnit.c cexItems).headD emptySeg).tot =
      sumStats ((concatRun (some 5) SplitUnit.c cexItems).headD emptySeg).pieces ∧
    (unitVal SplitUnit.c
        ((concatRun (some 5) SplitUnit.c cexItems).headD emptySeg).tot ≤ 5 ∨
      ∀ p ∈ ((concatRun (some 5) SplitUnit.c
          cexItems).headD emptySeg).pieces.dropLast, stats p = (0, 0, 0)) :=
  (C4_amended_split_cap 5 (by decide) SplitUnit.c cexItems []).1
    ((concatRun (some 5) SplitUnit.c cexItems).headD emptySeg) (by decide)

/- ------------------------------------------------------------------ -/
/- Claim C1: header self-consistency of written documents              -/
/- ------------------------------------------------------------------ -/

/-- A single concatenated item. -/
def cex1Items : List (List Char × List Char × List Char) :=
  [(sL "v1", sL "t1", sL "hi")]

set_option maxRecDepth 100000 in
/-- C1 counterexample: a concatenated segment holding one item.  The
separator line written before the item is part of the segment's full
text but is never counted in the accumulator the header is converged
over, so `stats` of the written segment differs from the triple embedded
in its header. -/
theorem C1_counterexample :
    stats (segWritten Format.text (sL "T") true
        ((concatRun none SplitUnit.c cex1Items).headD emptySeg)) ≠
      segDeclared Format.text (sL "T")
        ((concatRun none SplitUnit.c cex1Items).headD emptySeg) := by
  decide

/-- C1 (amended): the header self-consistency invariant holds exactly for
single-item non-JSON documents: `stats` of the full written document
equals the triple in its header line.  For concatenated non-JSON
segments the engine's accumulator is the sum of the items' body stats
only — the separator lines in the written text are not counted — and the
embedded triple equals that accumulator plus the header's own stats, so
it undercounts the written file whenever a separator was written.  For
JSON documents (single-item and container alike) the embedded stats
object equals `stats` of the exact written text whenever the embedding
loop reached its fixed point: always on exit of the unbounded
`_flush_json` loops, and for `grab`'s 3-round per-file loop whenever it
converged. -/
theorem C1_amended_stats_consistency :
    (∀ (fmt : Format) (body : List Char) (m : Meta) (ts : List Char),
      stats (singleFileHeader fmt body m ts) =
        ((fixupLoop fmt [] ts (tadd (stats body) (stats (auxTxt fmt m)))).2.1,
         (fixupLoop fmt [] ts (tadd (stats body) (stats (auxTxt fmt m)))).2.2.1,
         (fixupLoop fmt [] ts (tadd (stats body)
            (stats (auxTxt fmt m)))).2.2.2.1)) ∧
    (∀ (fmt : Format) (ts : List Char) (limit : Option Nat) (u : SplitUnit)
        (items : List (List Char × List Char × List Char)),
      ∀ seg ∈ concatRun limit u items,
        seg.tot = sumStats seg.pieces ∧
        segWritten fmt ts true seg =
          (fixupLoop fmt seg.metas ts seg.tot).1 ++ seg.content ∧
        segDeclared fmt ts seg =
          tadd seg.tot (stats (fixupLoop fmt seg.metas ts seg.tot).1)) ∧
    (∀ (ctx : JsonCtx) (fuel : Nat) (s : Option (Nat × Nat × Nat)),
      (statsFixLoop ctx fuel s).2 = true →
      ∃ m, (statsFixLoop ctx fuel s).1 = some m ∧
        stats (dumpOpt ctx (some m)) = m) ∧
    (∀ ctx : JsonCtx, (grabJson ctx true).2.2 = true →
      ∃ m, (grabJson ctx true).2.1 = some m ∧
        stats (grabJson ctx true).1 = m) := by
  refine ⟨?_, ?_, ?_, ?_⟩
  · intro fmt body m ts
    exact (singleFileHeader_spec fmt body m ts).1
  · intro fmt ts limit u items seg hseg
    refine ⟨(concatRun_inv limit u items seg hseg).1, rfl, ?_⟩
    obtain ⟨-, hw, hl, hc⟩ := fixupLoop_fixed fmt seg.metas ts seg.tot
    unfold segDeclared tadd
    rw [hw, hl, hc]
  · intro ctx fuel s h
    exact statsFixLoop_exit ctx fuel s h
  · intro ctx h
    exact grabJson_consistent ctx h

/-- An empty serialization context: its stats-embedding loop converges
within the three rounds of `grab`'s budget. -/
def ctx0 : JsonCtx := ⟨[], [], [], [], []⟩

theorem C1_amended_witness :
    ∃ m, (statsFixLoop ctx0 3 none).1 = some m ∧
      stats (dumpOpt ctx0 (some m)) = m :=
  C1_amended_stats_consistency.2.2.1 ctx0 3 none (by decide)

theorem C8_stats_witness : (stats (sL "ab cd")).2.1 = 0 :=
  (C8_stats_characterization (sL "ab cd")).2.2.2.2 (by decide)
